import Mathlib

/-!
# mason0510/openai : the WeChat / completion bridge

A shallow embedding of `internal/service/gpt/gpt.go` and
`internal/handler/user.go`.

* Strings are Lean strings (sequences of Unicode scalar values); the texts the
  program handles come out of `encoding/json`, which only produces valid UTF-8.
* `time.Duration` and instants are integers (nanoseconds); no arithmetic in the
  program comes near the 64-bit range.
* `sync.Map` is an association list with `Load`, `Store` and `Delete`.
* Goroutines are records with a program counter; one scheduler action runs one
  atomic statement of one goroutine.  Executing a statement takes no time: time
  only passes while every goroutine is blocked, and then it jumps to the next
  timer (a context deadline, the arrival of a request, the end of the HTTP
  exchange).  A `select` with two ready cases is resolved by the scheduler.
* The HTTP exchange inside `completions` (`client.Do` and `ioutil.ReadAll`) and
  the `wechat` package are outside the repository sources: the exchange is a
  parameter `Http`, a WeChat message is the record of the three fields
  `ReceiveMsg` reads.
* The state carries a list of the events an observer sees (a call of
  `completions`, a store into the cache, a return of `Query`, an echo, the close
  of a session channel, the delete of an id), each with its instant. No
  statement of the program reads it.
-/

namespace OpenAI

/-! ## Strings (Go `strings` and `unicode`) -/

/-- Go `unicode.IsSpace`: the Latin-1 spaces and the `White_Space` table. -/
def IsSpace (r : Char) : Bool :=
  let n := r.toNat
  if n ≤ 0xFF then
    n == 0x09 || n == 0x0A || n == 0x0B || n == 0x0C || n == 0x0D || n == 0x20
      || n == 0x85 || n == 0xA0
  else
    n == 0x1680 || (0x2000 ≤ n && n ≤ 0x200A) || n == 0x2028 || n == 0x2029
      || n == 0x202F || n == 0x205F || n == 0x3000

/-- Go `strings.TrimPrefix`: drop `pre` once if `s` starts with it. -/
def TrimPrefix (s pre : String) : String :=
  if pre.toList.isPrefixOf s.toList then String.mk (s.toList.drop pre.toList.length) else s

/-- Go `strings.TrimSpace`: drop the leading and the trailing white space. -/
def TrimSpace (s : String) : String :=
  String.mk ((s.toList.dropWhile IsSpace).rdropWhile IsSpace)

/-- Go `strings.Contains`. -/
def Contains (s substr : String) : Bool :=
  decide (substr.toList <:+: s.toList)

/-! ## Time and `sync.Map` -/

/-- Go `time.Second`: instants and values of `time.Duration` are integers,
in nanoseconds. -/
def Second : Int := 1000000000

abbrev SyncMap (K V : Type) := List (K × V)

namespace SyncMap

def Load {K V : Type} [DecidableEq K] : SyncMap K V → K → Option V
  | [], _ => none
  | (k', v) :: rest, k => if k' = k then some v else Load rest k

def Delete {K V : Type} [DecidableEq K] (m : SyncMap K V) (k : K) : SyncMap K V :=
  m.filter fun p => decide (p.1 ≠ k)

def Store {K V : Type} [DecidableEq K] (m : SyncMap K V) (k : K) (v : V) : SyncMap K V :=
  (k, v) :: Delete m k

end SyncMap

/-! ## gpt.go : the data and the pure part of `completions` -/

/-- The struct `choiceItem` of gpt.go. -/
structure choiceItem where
  Text : String
deriving DecidableEq, Repr

/-- The struct `response` of gpt.go (`Error.Message` flattened). -/
structure response where
  ID : String := ""
  Choices : List choiceItem := []
  ErrorMessage : String := ""
deriving DecidableEq, Repr

/-- What `client.Do` followed by `ioutil.ReadAll` and `json.Unmarshal` gives:
an error (its `Error()` text) or the decoded body. -/
inductive HttpResult
  | fail (err : String)
  | body (data : response)
deriving DecidableEq, Repr

/-- One HTTP exchange: how long it takes and what comes back. -/
structure HttpReply where
  delay : Nat
  result : HttpResult
deriving DecidableEq, Repr

/-- The backend as seen from `completions`: called at an instant with the mode,
the prompt and the client timeout. -/
abbrev Http := Int → Bool → String → Int → HttpReply

/-- The leading artifact `completions` trims (U+FF1F). -/
def artifact : String := "？"

/-- `completions`, gpt.go:125-142, after the exchange: the `(string, error)`
pair it returns (`none` is a nil error). -/
def completionsResult : HttpResult → String × Option String
  | .fail err => ("", some err)
  | .body data =>
    match data.Choices with
    | c :: _ => (TrimSpace (TrimPrefix c.Text artifact), none)
    | [] => (data.ErrorMessage, none)

/-- `completions`, gpt.go:94-143: the time the call takes and the pair it
returns. -/
def completions (http : Http) (now : Int) (isFast : Bool) (msg : String)
    (timeout : Int) : Nat × String × Option String :=
  let r := http now isFast msg timeout
  (r.delay, completionsResult r.result)

/-- The text the goroutine of `Query` sends, gpt.go:59-62. -/
def resultText (result : String) (err : Option String) : String :=
  match err with
  | some e => "发生错误「" ++ e ++ "」，您重试一下"
  | none => result

/-- The sentence `Query` returns when its context expires first, gpt.go:77. -/
def stillWorking : String := "超时啦，你等下再问我一遍，我一定告诉你！"

/-! ## The state of the process -/

/-- The fields of a WeChat message that `ReceiveMsg` reads (`msg.MsgId`,
`msg.Content`, `msg.IsText()`). -/
structure Msg where
  MsgId : Int
  Content : String
  IsText : Bool := true
deriving DecidableEq, Repr

/-- What one call of `ReceiveMsg` writes to the connection: `success` for a
message that is not text, the echo of a result (user.go:82-83), or nothing when
its own five seconds run out (user.go:85). -/
inductive Reply
  | success
  | echo (result : String)
  | silent
deriving DecidableEq, Repr

/-- The channel `ch` of `Query` (gpt.go:48): capacity one. -/
structure QChan where
  buf : Option String := none
  closed : Bool := false
deriving DecidableEq, Repr

/-- Where a call of `gpt.Query` stands. -/
inductive QPc
  | load
  | spawn
  | select (ch : Nat)
  | ret (result : String)
deriving DecidableEq, Repr

/-- The frame of a call of `gpt.Query`: its arguments, `start` (gpt.go:47) and
the deadline of `ctx` (gpt.go:49). -/
structure QFrame where
  isFast : Bool
  msg : String
  timeout : Int
  start : Int
  deadline : Int
  pc : QPc := .load
deriving DecidableEq, Repr

inductive APc
  | pending
  | load
  | store
  | go
  | select
  | done (r : Reply)
deriving DecidableEq, Repr

/-- One call of `handler.ReceiveMsg`: the message, the instant the request
arrives, the deadline of `ctx` (user.go:51) and `ch` (user.go:54). -/
structure Attempt where
  msg : Msg
  arrival : Int
  deadline : Int := 0
  ch : Nat := 0
  pc : APc := .pending
deriving DecidableEq, Repr

inductive WPc
  | start
  | query (f : QFrame)
  | send (result : String)
  | waitCtx
  | close
  | delete
  | done
deriving DecidableEq, Repr

/-- The goroutine `ReceiveMsg` starts for a new message id (user.go:59-75). -/
structure Worker where
  id : Int
  msg : String
  ch : Nat
  deadline : Int := 0
  pc : WPc := .start
deriving DecidableEq, Repr

inductive CPc
  | pending
  | query (f : QFrame)
deriving DecidableEq, Repr

/-- A direct call of `gpt.Query`, such as the one of `handler.Test`. -/
structure Caller where
  isFast : Bool
  msg : String
  timeout : Int
  arrival : Int
  pc : CPc := .pending
deriving DecidableEq, Repr

inductive BPc
  | call
  | wait (readyAt : Int) (result : String) (err : Option String)
  | since (result : String)
  | close
  | done
deriving DecidableEq, Repr

/-- The goroutine of `Query` (gpt.go:57-71), with the variables it captures. -/
structure Backend where
  isFast : Bool
  msg : String
  timeout : Int
  start : Int
  ch : Nat
  pc : BPc := .call
deriving DecidableEq, Repr

inductive G
  | attempt (a : Attempt)
  | worker (w : Worker)
  | caller (c : Caller)
  | backend (b : Backend)
deriving DecidableEq, Repr

/-- What an observer of the process sees, each with the instant it happens. -/
inductive Event
  | invoked (msg : String)
  | cached (msg result : String)
  | returned (msg result : String)
  | echoed (id : Int) (result : String)
  | closed (id : Int)
  | deleted (id : Int)
deriving DecidableEq, Repr

/-- The process: the clock, the two package-level maps (`requests` of
user.go:18, `resultCache` of gpt.go:22), the channels made so far (a session
channel is its closed flag: it has no buffer), the goroutines, and the events
observed so far, oldest first. -/
structure Sys where
  now : Int := 0
  requests : SyncMap Int Nat := []
  resultCache : SyncMap String String := []
  chans : List Bool := []
  qchans : List QChan := []
  gs : List G := []
  trace : List (Int × Event) := []
deriving DecidableEq, Repr

namespace Sys

def setG (s : Sys) (g : Nat) (x : G) : Sys :=
  { s with gs := s.gs.set g x }

def emit (s : Sys) (e : Event) : Sys :=
  { s with trace := s.trace ++ [(s.now, e)] }

end Sys

/-! ## gpt.go : `Query` -/

namespace Query

/-- Entry of `Query` (gpt.go:47-50): `start`, the channel variable and the
context are local; the frame records them. -/
def enter (now : Int) (isFast : Bool) (msg : String) (timeout : Int) : QFrame :=
  { isFast := isFast, msg := msg, timeout := timeout, start := now, deadline := now + timeout }

/-- One statement of `Query` by the goroutine that called it; in the `select`
this is the case `result = <-ch`. -/
def run (s : Sys) (f : QFrame) : Option (Sys × QFrame) :=
  match f.pc with
  | .load =>
    -- gpt.go:52-55
    match SyncMap.Load s.resultCache f.msg with
    | some cacheVal => some (s.emit (.returned f.msg cacheVal), { f with pc := .ret cacheVal })
    | none => some (s, { f with pc := .spawn })
  | .spawn =>
    -- gpt.go:48 and 57: the channel becomes shared when the goroutine starts
    let ch := s.qchans.length
    let b : Backend :=
      { isFast := f.isFast, msg := f.msg, timeout := f.timeout, start := f.start, ch := ch }
    some ({ s with qchans := s.qchans ++ [{}], gs := s.gs ++ [G.backend b] },
          { f with pc := .select ch })
  | .select ch =>
    -- gpt.go:75
    match s.qchans[ch]? with
    | some q =>
      match q.buf with
      | some result =>
        some (({ s with qchans := s.qchans.set ch { q with buf := none } }).emit
                (.returned f.msg result), { f with pc := .ret result })
      | none =>
        if q.closed then some (s.emit (.returned f.msg ""), { f with pc := .ret "" }) else none
    | none => none
  | .ret _ => none

/-- The case `<-ctx.Done()` of the `select` of `Query` (gpt.go:76-77). -/
def expire (s : Sys) (f : QFrame) : Option (Sys × QFrame) :=
  match f.pc with
  | .select _ =>
    if f.deadline ≤ s.now then
      some (s.emit (.returned f.msg stillWorking), { f with pc := .ret stillWorking })
    else none
  | _ => none

/-- The timer a call of `Query` is waiting for, if it is waiting. -/
def wake (f : QFrame) : Option Int :=
  match f.pc with
  | .select _ => some f.deadline
  | _ => none

end Query

/-- One statement of the goroutine of `Query` (gpt.go:57-71). -/
def runBackend (http : Http) (s : Sys) (g : Nat) (b : Backend) : Option Sys :=
  match b.pc with
  | .call =>
    -- gpt.go:59: the call starts
    let r := completions http s.now b.isFast b.msg (100 * Second)
    some ((s.emit (.invoked b.msg)).setG g
      (.backend { b with pc := .wait (s.now + r.1) r.2.1 r.2.2 }))
  | .wait readyAt result err =>
    -- gpt.go:59-63: the call returns, the result goes into the channel
    if readyAt ≤ s.now then
      match s.qchans[b.ch]? with
      | some q =>
        match q.buf with
        | none =>
          some (({ s with qchans := s.qchans.set b.ch { q with buf := some (resultText result err) } }).setG g
            (.backend { b with pc := .since (resultText result err) }))
        | some _ => none
      | none => none
    else none
  | .since result =>
    -- gpt.go:65-70
    let since := s.now - b.start
    if since > b.timeout then
      some ((({ s with resultCache := SyncMap.Store s.resultCache b.msg result }).emit
        (.cached b.msg result)).setG g (.backend { b with pc := .close }))
    else some (s.setG g (.backend { b with pc := .close }))
  | .close =>
    -- gpt.go:58, deferred
    match s.qchans[b.ch]? with
    | some q =>
      some (({ s with qchans := s.qchans.set b.ch { q with closed := true } }).setG g
        (.backend { b with pc := .done }))
    | none => none
  | .done => none

/-- One statement of a direct caller of `Query`. -/
def runCaller (s : Sys) (g : Nat) (c : Caller) : Option Sys :=
  match c.pc with
  | .pending =>
    if c.arrival ≤ s.now then
      some (s.setG g (.caller { c with pc := .query (Query.enter s.now c.isFast c.msg c.timeout) }))
    else none
  | .query f =>
    (Query.run s f).map fun r => r.1.setG g (.caller { c with pc := .query r.2 })

/-! ## user.go : `ReceiveMsg` and its worker -/

/-- The value a worker is blocked sending on channel `ch`, if `x` is one. -/
def sending (ch : Nat) : G → Option (Worker × String)
  | .worker w =>
    match w.pc with
    | .send result => if w.ch = ch then some (w, result) else none
    | _ => none
  | _ => none

/-- The first goroutine blocked in a send on channel `ch`. -/
def findSender : List G → Nat → Option (Nat × Worker × String)
  | [], _ => none
  | x :: xs, ch =>
    match sending ch x with
    | some (w, result) => some (0, w, result)
    | none => (findSender xs ch).map fun r => (r.1 + 1, r.2)

/-- One statement of the worker goroutine (user.go:59-75). -/
def runWorker (s : Sys) (g : Nat) (w : Worker) : Option Sys :=
  match w.pc with
  | .start =>
    -- user.go:61-67: the context is made, then `Query` is entered
    let timeout := 14 * Second
    some (s.setG g (.worker { w with
      deadline := s.now + timeout,
      pc := .query (Query.enter s.now (!Contains w.msg "代码") w.msg timeout) }))
  | .query f =>
    match f.pc with
    | .ret result => some (s.setG g (.worker { w with pc := .send result }))
    | _ => (Query.run s f).map fun r => r.1.setG g (.worker { w with pc := .query r.2 })
  | .send _ =>
    -- user.go:68: the channel has no buffer; the send ends when a receiver takes it
    none
  | .waitCtx =>
    -- user.go:71
    if w.deadline ≤ s.now then some (s.setG g (.worker { w with pc := .close })) else none
  | .close =>
    -- user.go:72
    some ((({ s with chans := s.chans.set w.ch true }).emit (.closed w.id)).setG g
      (.worker { w with pc := .delete }))
  | .delete =>
    -- user.go:73
    some ((({ s with requests := SyncMap.Delete s.requests w.id }).emit (.deleted w.id)).setG g
      (.worker { w with pc := .done }))
  | .done => none

/-- One statement of `ReceiveMsg` (user.go:39-87); in the `select` this is the
case `result := <-ch`. -/
def ReceiveMsg (s : Sys) (g : Nat) (a : Attempt) : Option Sys :=
  match a.pc with
  | .pending =>
    -- user.go:40-52
    if a.arrival ≤ s.now then
      if !a.msg.IsText then some (s.setG g (.attempt { a with pc := .done .success }))
      else some (s.setG g (.attempt { a with deadline := s.now + 5 * Second, pc := .load }))
    else none
  | .load =>
    -- user.go:55-56, 77
    match SyncMap.Load s.requests a.msg.MsgId with
    | some v => some (s.setG g (.attempt { a with ch := v, pc := .select }))
    | none => some (s.setG g (.attempt { a with pc := .store }))
  | .store =>
    -- user.go:57-58
    let ch := s.chans.length
    some (({ s with chans := s.chans ++ [false],
                    requests := SyncMap.Store s.requests a.msg.MsgId ch }).setG g
      (.attempt { a with ch := ch, pc := .go }))
  | .go =>
    -- user.go:59
    let w : Worker := { id := a.msg.MsgId, msg := a.msg.Content, ch := a.ch }
    some (({ s with gs := s.gs ++ [G.worker w] }).setG g (.attempt { a with pc := .select }))
  | .select =>
    -- user.go:81-83
    match s.chans[a.ch]? with
    | some true =>
      -- a closed channel yields the zero value
      some ((s.emit (.echoed a.msg.MsgId "")).setG g (.attempt { a with pc := .done (.echo "") }))
    | some false =>
      match findSender s.gs a.ch with
      | some (w, wk, result) =>
        some (((s.emit (.echoed a.msg.MsgId result)).setG w
          (.worker { wk with pc := .waitCtx })).setG g
          (.attempt { a with pc := .done (.echo result) }))
      | none => none
    | none => none
  | .done _ => none

/-! ## The scheduler -/

/-- A scheduler action: goroutine `g` runs its next statement (in a `select`,
the receive case), goroutine `g` takes the `<-ctx.Done()` case of its `select`,
or time passes. -/
inductive Act
  | run (g : Nat)
  | expire (g : Nat)
  | advance
deriving DecidableEq, Repr

def runG (http : Http) (s : Sys) (g : Nat) : Option Sys :=
  match s.gs[g]? with
  | some (.attempt a) => ReceiveMsg s g a
  | some (.worker w) => runWorker s g w
  | some (.caller c) => runCaller s g c
  | some (.backend b) => runBackend http s g b
  | none => none

def expireG (s : Sys) (g : Nat) : Option Sys :=
  match s.gs[g]? with
  | some (.attempt a) =>
    match a.pc with
    | .select =>
      -- user.go:85
      if a.deadline ≤ s.now then some (s.setG g (.attempt { a with pc := .done .silent }))
      else none
    | _ => none
  | some (.worker w) =>
    match w.pc with
    | .query f => (Query.expire s f).map fun r => r.1.setG g (.worker { w with pc := .query r.2 })
    | _ => none
  | some (.caller c) =>
    match c.pc with
    | .query f => (Query.expire s f).map fun r => r.1.setG g (.caller { c with pc := .query r.2 })
    | _ => none
  | _ => none

/-- The timer a blocked goroutine is waiting for. -/
def wake : G → Option Int
  | .attempt a =>
    match a.pc with
    | .pending => some a.arrival
    | .select => some a.deadline
    | _ => none
  | .worker w =>
    match w.pc with
    | .query f => Query.wake f
    | .waitCtx => some w.deadline
    | _ => none
  | .caller c =>
    match c.pc with
    | .pending => some c.arrival
    | .query f => Query.wake f
  | .backend b =>
    match b.pc with
    | .wait readyAt _ _ => some readyAt
    | _ => none

/-- No goroutine can run a statement now. -/
def quiescent (http : Http) (s : Sys) : Bool :=
  (List.range s.gs.length).all fun g => (runG http s g).isNone && (expireG s g).isNone

/-- The earliest timer among the blocked goroutines. -/
def nextWake (s : Sys) : Option Int :=
  (s.gs.filterMap wake).min?

/-- Time passes: only when nothing can run, and up to the next timer. -/
def advance (http : Http) (s : Sys) : Option Sys :=
  if quiescent http s then
    match nextWake s with
    | some t => if s.now < t then some { s with now := t } else none
    | none => none
  else none

def step (http : Http) (s : Sys) : Act → Option Sys
  | .run g => runG http s g
  | .expire g => expireG s g
  | .advance => advance http s

/-- Run a schedule; `none` when one of its actions is not enabled. -/
def exec (http : Http) (s : Sys) : List Act → Option Sys
  | [] => some s
  | a :: rest => (step http s a).bind fun s' => exec http s' rest

/-! ## Observations and exhaustive exploration -/

/-- The value `Query` returned to the direct caller `g`. -/
def result (s : Sys) (g : Nat) : Option String :=
  match s.gs[g]? with
  | some (.caller c) =>
    match c.pc with
    | .query f =>
      match f.pc with
      | .ret r => some r
      | _ => none
    | _ => none
  | _ => none

/-- What the call `g` of `ReceiveMsg` wrote, once it has returned. -/
def replyOf (s : Sys) (g : Nat) : Option Reply :=
  match s.gs[g]? with
  | some (.attempt a) =>
    match a.pc with
    | .done r => some r
    | _ => none
  | _ => none

/-- Whether `x` is a worker goroutine for message `id` that has not ended. -/
def isLiveWorker (id : Int) : G → Bool
  | .worker w => decide (w.id = id) && decide (w.pc ≠ .done)
  | _ => false

/-- The number of worker goroutines alive for message `id`. -/
def liveWorkers (s : Sys) (id : Int) : Nat :=
  (s.gs.filter (isLiveWorker id)).length

/-- The program counter of the goroutine of `Query` at index `g`. -/
def backendPc (s : Sys) (g : Nat) : Option BPc :=
  match s.gs[g]? with
  | some (.backend b) => some b.pc
  | _ => none

/-- The program counter of the worker at index `g`. -/
def workerPc (s : Sys) (g : Nat) : Option WPc :=
  match s.gs[g]? with
  | some (.worker w) => some w.pc
  | _ => none

/-- The channel the call `g` of `ReceiveMsg` is waiting on in its `select`. -/
def waitingOn (s : Sys) (g : Nat) : Option Nat :=
  match s.gs[g]? with
  | some (.attempt a) =>
    match a.pc with
    | .select => some a.ch
    | _ => none
  | _ => none

/-- The channel and the value of the worker `g` blocked in its send. -/
def sendingOn (s : Sys) (g : Nat) : Option (Nat × String) :=
  match s.gs[g]? with
  | some (.worker w) =>
    match w.pc with
    | .send r => some (w.ch, r)
    | _ => none
  | _ => none

/-- The instant of the first event of `tr` that satisfies `p`. -/
def firstAt (tr : List (Int × Event)) (p : Event → Bool) : Option Int :=
  (tr.find? fun x => p x.2).map Prod.fst

/-- The instant at which a call of `ReceiveMsg` for message `id` echoes a result. -/
def deliveredAt (tr : List (Int × Event)) (id : Int) : Option Int :=
  firstAt tr fun e =>
    match e with
    | .echoed i _ => decide (i = id)
    | _ => false

/-- The instant at which the worker for message `id` closes its channel. -/
def closedAt (tr : List (Int × Event)) (id : Int) : Option Int :=
  firstAt tr fun e =>
    match e with
    | .closed i => decide (i = id)
    | _ => false

/-- The instant at which the worker for message `id` deletes the id from `requests`. -/
def deletedAt (tr : List (Int × Event)) (id : Int) : Option Int :=
  firstAt tr fun e =>
    match e with
    | .deleted i => decide (i = id)
    | _ => false

/-- Every action that can be enabled in `s`. -/
def allActs (s : Sys) : List Act :=
  ((List.range s.gs.length).flatMap fun g => [Act.run g, Act.expire g]) ++ [Act.advance]

/-- The states one action away from `s`. -/
def post (http : Http) (s : Sys) : List Sys :=
  (allActs s).filterMap (step http s)

/-- The states exactly `n` actions away from `s`. -/
def reachN (http : Http) : Nat → Sys → List Sys
  | 0, s => [s]
  | n + 1, s => (post http s).flatMap (reachN http n)

/-- The states at most `n` actions away from `s`. -/
def reachable (http : Http) : Nat → Sys → List Sys
  | 0, s => [s]
  | n + 1, s => s :: (post http s).flatMap (reachable http n)

/-! ## Backends and starting states used in the statements -/

/-- A backend that answers every call after `delay` with the one choice `text`. -/
def answers (delay : Nat) (text : String) : Http :=
  fun _ _ _ _ => { delay := delay, result := .body { Choices := [{ Text := text }] } }

/-- A backend whose exchange fails after `delay` with the error `err`. -/
def fails (delay : Nat) (err : String) : Http :=
  fun _ _ _ _ => { delay := delay, result := .fail err }

/-- The process with the requests `l` (arrival instant, message) on their way to
`ReceiveMsg`, both maps empty. -/
def deliveries (l : List (Int × Msg)) : Sys :=
  { gs := l.map fun x => G.attempt { msg := x.2, arrival := x.1 } }

/-- The process with one direct call `Query(isFast, Q, D)` made at instant 0 and
`resultCache` holding `c0`. -/
def direct (c0 : SyncMap String String) (isFast : Bool) (Q : String) (D : Int) : Sys :=
  { resultCache := c0, gs := [.caller { isFast := isFast, msg := Q, timeout := D, arrival := 0 }] }

/-- The process with one direct call `Query(isFast, Q, D)` made when the clock
reads `t0`, `resultCache` holding `c0`. -/
def directAt (c0 : SyncMap String String) (isFast : Bool) (Q : String) (D : Int) (t0 : Int) :
    Sys :=
  { now := t0, resultCache := c0,
    gs := [.caller { isFast := isFast, msg := Q, timeout := D, arrival := t0 }] }

/-- The text message with id 1 and content "hello". -/
def hello : Msg := { MsgId := 1, Content := "hello" }

/-- A state of the process in which two calls of `ReceiveMsg` for message 1 wait
on channel 0 and the worker is blocked sending "hi" on it. -/
def twoWaiting : Sys :=
  { now := 2000000000
    requests := [(1, 0)]
    chans := [false]
    qchans := [{ buf := none, closed := false }]
    gs := [.attempt { msg := hello, arrival := 0, deadline := 5000000000, ch := 0, pc := .select },
           .attempt { msg := hello, arrival := 1000000000, deadline := 6000000000, ch := 0,
                      pc := .select },
           .worker { id := 1, msg := "hello", ch := 0, deadline := 14000000000, pc := .send "hi" },
           .backend { isFast := true, msg := "hello", timeout := 14000000000, start := 0, ch := 0,
                      pc := .since "hi" }]
    trace := [(0, .invoked "hello"), (2000000000, .returned "hello" "hi")] }

/-- The process at 6 s, when the call of `ReceiveMsg` for a delivery of message 1
that arrived at 6 s has just started the worker (user.go:59). -/
def workerStarted : Sys :=
  { now := 6000000000
    requests := [(1, 0)]
    chans := [false]
    gs := [.attempt { msg := hello, arrival := 6000000000, deadline := 11000000000, ch := 0,
                      pc := .select },
           .worker { id := 1, msg := "hello", ch := 0 }] }

/-- The same process at 8 s, the backend having answered "hi" after 2 s, when the
call of `ReceiveMsg` has just taken the result from the worker. -/
def resultTaken : Sys :=
  { now := 8000000000
    requests := [(1, 0)]
    chans := [false]
    qchans := [{ buf := none, closed := false }]
    gs := [.attempt { msg := hello, arrival := 6000000000, deadline := 11000000000, ch := 0,
                      pc := .done (.echo "hi") },
           .worker { id := 1, msg := "hello", ch := 0, deadline := 20000000000, pc := .waitCtx },
           .backend { isFast := true, msg := "hello", timeout := 14000000000, start := 6000000000,
                      ch := 0, pc := .since "hi" }]
    trace := [(6000000000, .invoked "hello"), (8000000000, .returned "hello" "hi"),
              (8000000000, .echoed 1 "hi")] }

/-- The text the goroutine of `Query` makes of an exchange (gpt.go:59-62). -/
def textOf (hr : HttpResult) : String :=
  resultText (completionsResult hr).1 (completionsResult hr).2

/-! ## The states of a direct call of `Query` (used in the proofs) -/

def callerAt (isFast : Bool) (Q : String) (D : Int) (pc : QPc) : G :=
  .caller { isFast := isFast, msg := Q, timeout := D, arrival := 0,
            pc := .query { isFast := isFast, msg := Q, timeout := D, start := 0, deadline := D,
                           pc := pc } }

/-- The caller of a direct call made at `t0`, inside `Query` at `pc`. -/
def callerFrom (isFast : Bool) (Q : String) (D : Int) (t0 : Int) (pc : QPc) : G :=
  .caller { isFast := isFast, msg := Q, timeout := D, arrival := t0,
            pc := .query { isFast := isFast, msg := Q, timeout := D, start := t0,
                           deadline := t0 + D, pc := pc } }

/-- The goroutine of a call of `Query` made at `t0`. -/
def backendFrom (isFast : Bool) (Q : String) (D : Int) (t0 : Int) (pc : BPc) : G :=
  .backend { isFast := isFast, msg := Q, timeout := D, start := t0, ch := 0, pc := pc }

/-- The cache once the goroutine of `Query` has passed gpt.go:66-70. -/
def finalCache (c0 : SyncMap String String) (Q : String) (D : Int) (T : Nat)
    (hr : HttpResult) : SyncMap String String :=
  if D < T then SyncMap.Store c0 Q (textOf hr) else c0

def callerOKAt (D : Int) (t0 : Int) (T : Nat) (hr : HttpResult) (now : Int) : QPc → Prop
  | .select ch => ch = 0 ∧ (now ≤ t0 + D ∨ now = t0)
  | .ret r => (r = stillWorking ∧ D ≤ T) ∨ (r = textOf hr ∧ (T ≤ D ∨ T = 0))
  | _ => False

def bufOK (hr : HttpResult) (cpc : QPc) (buf : Option String) : Prop :=
  buf = some (textOf hr) ∨ (buf = none ∧ cpc = .ret (textOf hr))

def backendOKAt (c0 : SyncMap String String) (Q : String) (D : Int) (t0 : Int) (T : Nat)
    (hr : HttpResult) (now : Int) (cache : SyncMap String String) (cpc : QPc)
    (buf : Option String) (closed : Bool) : BPc → Prop
  | .call => now = t0 ∧ buf = none ∧ closed = false ∧ cache = c0
  | .wait t a e => t = t0 + T ∧ a = (completionsResult hr).1 ∧ e = (completionsResult hr).2 ∧
      now ≤ t0 + T ∧ buf = none ∧ closed = false ∧ cache = c0
  | .since x => x = textOf hr ∧ now = t0 + T ∧ closed = false ∧ cache = c0 ∧ bufOK hr cpc buf
  | .close => now = t0 + T ∧ closed = false ∧ cache = finalCache c0 Q D T hr ∧ bufOK hr cpc buf
  | .done => now = t0 + T ∧ closed = true ∧ cache = finalCache c0 Q D T hr ∧ bufOK hr cpc buf

/-- The states of a direct call of `Query` made at `t0` that misses the cache,
when the exchange takes `T` and gives `hr`. -/
def QInvAt (c0 : SyncMap String String) (isFast : Bool) (Q : String) (D : Int) (t0 : Int)
    (T : Nat) (hr : HttpResult) (s : Sys) : Prop :=
  s.requests = [] ∧ s.chans = [] ∧ t0 ≤ s.now ∧
  ((s.now = t0 ∧ s.resultCache = c0 ∧ s.qchans = [] ∧
      (s.gs = [.caller { isFast := isFast, msg := Q, timeout := D, arrival := t0 }] ∨
       s.gs = [callerFrom isFast Q D t0 .load] ∨ s.gs = [callerFrom isFast Q D t0 .spawn])) ∨
   ∃ cpc bpc buf closed,
      s.gs = [callerFrom isFast Q D t0 cpc, backendFrom isFast Q D t0 bpc] ∧
      s.qchans = [{ buf := buf, closed := closed }] ∧
      callerOKAt D t0 T hr s.now cpc ∧
      backendOKAt c0 Q D t0 T hr s.now s.resultCache cpc buf closed bpc)

/-- The states of a direct call of `Query` that finds `v` in the cache. -/
def HitInv (c0 : SyncMap String String) (isFast : Bool) (Q : String) (D : Int) (v : String)
    (s : Sys) : Prop :=
  s.now = 0 ∧ s.requests = [] ∧ s.resultCache = c0 ∧ s.chans = [] ∧ s.qchans = [] ∧
  ((s.trace = [] ∧
      (s.gs = [.caller { isFast := isFast, msg := Q, timeout := D, arrival := 0 }] ∨
       s.gs = [callerAt isFast Q D .load])) ∨
   (s.trace = [(0, .returned Q v)] ∧ s.gs = [callerAt isFast Q D (.ret v)]))

/-! ## Ownership of the session channels (used in the proofs) -/

/-- The session channel a goroutine owns as its only sender: a worker owns its
channel, a call of `ReceiveMsg` owns the channel it has made until it has
started the worker. -/
def owner : G → Option Nat
  | .worker w => some w.ch
  | .attempt a =>
    match a.pc with
    | .go => some a.ch
    | _ => none
  | _ => none

/-- The owned session channels, in the order of the goroutines. -/
def owners (gs : List G) : List Nat := gs.filterMap owner

/-- No session channel has two owners, and every owned channel has been made. -/
def ChanInv (s : Sys) : Prop :=
  (owners s.gs).Nodup ∧ ∀ c ∈ owners s.gs, c < s.chans.length

/-- What a step does to the channels: nothing, or one new channel with its owner. -/
def ChanEffect (s s' : Sys) : Prop :=
  (s'.chans.length = s.chans.length ∧ (owners s'.gs).Perm (owners s.gs)) ∨
  (s'.chans.length = s.chans.length + 1 ∧ (owners s'.gs).Perm (s.chans.length :: owners s.gs))

/-! ## The life of one worker (used in the proofs) -/

/-- A statement that leaves the clock alone, only adds events, and at most
appends one goroutine. -/
def Keeps (s s1 : Sys) : Prop :=
  s1.now = s.now ∧ (∃ es, s1.trace = s.trace ++ es) ∧
  (s1.gs = s.gs ∨ ∃ y, s1.gs = s.gs ++ [y])

/-- What a statement of another goroutine does to the worker `wk` at index `w`:
nothing, or it takes the value the worker is sending. -/
def Other (s s' : Sys) (w : Nat) (wk : Worker) : Prop :=
  s'.now = s.now ∧ (∃ es, s'.trace = s.trace ++ es) ∧
  (s'.gs[w]? = some (.worker wk) ∨
   ((∃ r, wk.pc = .send r) ∧ s'.gs[w]? = some (.worker { wk with pc := .waitCtx })))

/-- What one step of the process does to a worker (`wk` before, `wk1` after):
the worker is left alone, time passes while it is blocked, or it runs one of
the statements of user.go:61-73. -/
def WorkerMove (s s' : Sys) (wk wk1 : Worker) : Prop :=
  (∃ es, s'.trace = s.trace ++ es) ∧ wk1.id = wk.id ∧
  ((wk1 = wk ∧ s'.now = s.now) ∨
   (wk1 = wk ∧ s.now < s'.now ∧ s'.trace = s.trace ∧ wk.pc ≠ .start ∧ wk.pc ≠ .close ∧
      wk.pc ≠ .delete ∧ (wk.pc = .waitCtx → s'.now ≤ wk.deadline)) ∨
   (s'.now = s.now ∧ wk.pc = .start ∧ wk1.deadline = s.now + 14 * Second ∧
      ∃ f, wk1.pc = .query f) ∨
   (s'.now = s.now ∧ (∃ f, wk.pc = .query f) ∧ wk1.deadline = wk.deadline ∧
      ((∃ f, wk1.pc = .query f) ∨ ∃ r, wk1.pc = .send r)) ∨
   (s'.now = s.now ∧ (∃ r, wk.pc = .send r) ∧ wk1.deadline = wk.deadline ∧
      wk1.pc = .waitCtx) ∨
   (s'.now = s.now ∧ wk.pc = .waitCtx ∧ wk.deadline ≤ s.now ∧ wk1.deadline = wk.deadline ∧
      wk1.pc = .close) ∨
   (s'.now = s.now ∧ wk.pc = .close ∧ wk1.deadline = wk.deadline ∧ wk1.pc = .delete ∧
      s'.trace = s.trace ++ [(s.now, .closed wk.id)]) ∨
   (s'.now = s.now ∧ wk.pc = .delete ∧ wk1.deadline = wk.deadline ∧ wk1.pc = .done ∧
      s'.trace = s.trace ++ [(s.now, .deleted wk.id)]))

/-- A worker that started when the clock read `t0`: its context ends at
`t0 + 14 s`, and it does not clean up before. -/
def Started (t0 : Int) (s : Sys) (wk : Worker) : Prop :=
  (wk.pc = .start → s.now = t0) ∧ (wk.pc ≠ .start → wk.deadline = t0 + 14 * Second) ∧
  (wk.pc = .close ∨ wk.pc = .delete ∨ wk.pc = .done → t0 + 14 * Second ≤ s.now)

/-- A worker whose result was taken while its context, ending at `d`, was not
yet done; `tr0` is the trace at the moment of the hand-over. -/
def Cleaning (d : Int) (id : Int) (tr0 : List (Int × Event)) (s : Sys) (wk : Worker) : Prop :=
  wk.id = id ∧ wk.deadline = d ∧ ∃ es, s.trace = tr0 ++ es ∧
  (wk.pc = .waitCtx ∧ s.now ≤ d ∨
   wk.pc = .close ∧ s.now = d ∨
   wk.pc = .delete ∧ s.now = d ∧ (d, Event.closed id) ∈ es ∨
   wk.pc = .done ∧ d ≤ s.now ∧ (d, Event.closed id) ∈ es ∧ (d, Event.deleted id) ∈ es)

/-! ## General facts about schedules -/

theorem exec_append (http : Http) (s : Sys) (xs ys : List Act) :
    exec http s (xs ++ ys) = (exec http s xs).bind fun s' => exec http s' ys := by
  induction xs generalizing s with
  | nil => simp [exec]
  | cons a xs ih =>
    simp only [List.cons_append, exec]
    cases h : step http s a with
    | none => simp
    | some s1 => simpa using ih s1

theorem runG_lt (http : Http) (s s' : Sys) (g : Nat) (h : runG http s g = some s') :
    g < s.gs.length := by
  by_contra hlt
  have hnone : s.gs[g]? = none := List.getElem?_eq_none (Nat.le_of_not_lt hlt)
  simp [runG, hnone] at h

theorem expireG_lt (s s' : Sys) (g : Nat) (h : expireG s g = some s') :
    g < s.gs.length := by
  by_contra hlt
  have hnone : s.gs[g]? = none := List.getElem?_eq_none (Nat.le_of_not_lt hlt)
  simp [expireG, hnone] at h

theorem mem_allActs_of_step (http : Http) (s s' : Sys) (a : Act)
    (h : step http s a = some s') : a ∈ allActs s := by
  cases a with
  | run g =>
    have hg := runG_lt http s s' g h
    simp only [allActs, List.mem_append, List.mem_flatMap, List.mem_range]
    exact Or.inl ⟨g, hg, by simp⟩
  | expire g =>
    have hg := expireG_lt s s' g h
    simp only [allActs, List.mem_append, List.mem_flatMap, List.mem_range]
    exact Or.inl ⟨g, hg, by simp⟩
  | advance => simp [allActs]

theorem mem_post_of_step (http : Http) (s s' : Sys) (a : Act)
    (h : step http s a = some s') : s' ∈ post http s := by
  simp only [post, List.mem_filterMap]
  exact ⟨a, mem_allActs_of_step http s s' a h, h⟩

theorem exec_mem_reachN (http : Http) (acts : List Act) :
    ∀ s s', exec http s acts = some s' → s' ∈ reachN http acts.length s := by
  induction acts with
  | nil =>
    intro s s' h
    simp [exec] at h
    simp [reachN, h]
  | cons a rest ih =>
    intro s s' h
    simp only [exec] at h
    cases hs : step http s a with
    | none => simp [hs] at h
    | some s1 =>
      simp only [hs, Option.some_bind] at h
      simp only [List.length_cons, reachN, List.mem_flatMap]
      exact ⟨s1, mem_post_of_step http s s1 a hs, ih s1 s' h⟩

theorem reachN_subset_reachable (http : Http) :
    ∀ (n k : Nat) (s s' : Sys), k ≤ n → s' ∈ reachN http k s → s' ∈ reachable http n s := by
  intro n
  induction n with
  | zero =>
    intro k s s' hk h
    have hk0 : k = 0 := Nat.le_zero.mp hk
    subst hk0
    simpa [reachN, reachable] using h
  | succ n ih =>
    intro k s s' hk h
    cases k with
    | zero =>
      simp only [reachN, List.mem_singleton] at h
      simp [reachable, h]
    | succ k =>
      simp only [reachN, List.mem_flatMap] at h
      obtain ⟨s1, h1, h2⟩ := h
      simp only [reachable, List.mem_cons, List.mem_flatMap]
      exact Or.inr ⟨s1, h1, ih k s1 s' (Nat.le_of_succ_le_succ hk) h2⟩

/-- When no state is `N` actions away from `s`, every schedule from `s` is
shorter than `N`. -/
theorem exec_length_lt (http : Http) (s s' : Sys) (N : Nat) (acts : List Act)
    (hN : reachN http N s = []) (h : exec http s acts = some s') : acts.length < N := by
  by_contra hge
  have hsplit : acts = acts.take N ++ acts.drop N := (List.take_append_drop N acts).symm
  rw [hsplit, exec_append] at h
  cases h1 : exec http s (acts.take N) with
  | none => simp [h1] at h
  | some s1 =>
    have hmem := exec_mem_reachN http (acts.take N) s s1 h1
    have hlen : (acts.take N).length = N := by
      simp only [List.length_take]
      omega
    rw [hlen, hN] at hmem
    simp at hmem

/-- Every state a schedule reaches from `s` is among the explored ones, when
the exploration to depth `N` is exhaustive. -/
theorem exec_mem_reachable (http : Http) (s s' : Sys) (N : Nat) (acts : List Act)
    (hN : reachN http N s = []) (h : exec http s acts = some s') :
    s' ∈ reachable http N s :=
  reachN_subset_reachable http N acts.length s s'
    (Nat.le_of_lt (exec_length_lt http s s' N acts hN h)) (exec_mem_reachN http acts s s' h)

theorem exec_map_cons {α : Type} (http : Http) (f : Sys → α) (y : α) (s s1 : Sys) (a : Act)
    (rest : List Act) (h1 : step http s a = some s1)
    (h2 : (exec http s1 rest).map f = some y) : (exec http s (a :: rest)).map f = some y := by
  simp only [exec, h1, Option.some_bind]
  exact h2

theorem exec_map_some {α : Type} (http : Http) (f : Sys → α) (y : α) (s : Sys) (acts : List Act)
    (h : (exec http s acts).map f = some y) : ∃ s', exec http s acts = some s' ∧ f s' = y := by
  cases hs : exec http s acts with
  | none =>
    rw [hs] at h
    cases h
  | some s' =>
    rw [hs] at h
    exact ⟨s', rfl, Option.some.inj h⟩

theorem step_advance (http : Http) (s : Sys) : step http s .advance = advance http s := rfl

/-- Time does not pass while a goroutine can run. -/
theorem advance_eq_none_of_runG (http : Http) (s : Sys) (g : Nat)
    (h : (runG http s g).isSome = true) : advance http s = none := by
  obtain ⟨s1, h1⟩ := Option.isSome_iff_exists.mp h
  have hg := runG_lt http s s1 g h1
  have hq : quiescent http s = false := by
    simp only [quiescent, List.all_eq_false, List.mem_range]
    exact ⟨g, hg, by simp [h1]⟩
  simp [advance, hq]

/-! ## A direct call of `Query`: the reachable states -/

theorem QInvAt_init (c0 : SyncMap String String) (isFast : Bool) (Q : String) (D : Int) (t0 : Int) (T : Nat)
    (hr : HttpResult) : QInvAt c0 isFast Q D t0 T hr (directAt c0 isFast Q D t0) := by
  simp [QInvAt, directAt]



section
attribute [local simp] step runG expireG advance quiescent nextWake runCaller runBackend
  Query.run Query.expire Query.enter Query.wake wake Sys.setG Sys.emit completions
  List.range List.range.loop

set_option maxHeartbeats 4000000 in
theorem QInvAt_step (http : Http) (c0 : SyncMap String String) (isFast : Bool) (Q : String)
    (D : Int) (t0 : Int) (T : Nat) (hr : HttpResult)
    (hmiss : SyncMap.Load c0 Q = none) (hhttp : http t0 isFast Q (100 * Second) = ⟨T, hr⟩)
    (s s' : Sys) (a : Act) (hinv : QInvAt c0 isFast Q D t0 T hr s) (h : step http s a = some s') :
    QInvAt c0 isFast Q D t0 T hr s' := by
  obtain ⟨hreq, hch, hnow, hph⟩ := hinv
  rcases s with ⟨now, requests, cache, chans, qchans, gs, trace⟩
  simp only at hreq hch hnow hph
  subst hreq hch
  rcases hph with ⟨hn0, hc, hq, hgs⟩ | ⟨cpc, bpc, buf, closed, hgs, hq, hcal, hbk⟩
  · -- before the goroutine exists
    subst hn0 hc hq
    rcases hgs with hgs | hgs | hgs <;> subst hgs
    · rcases a with g | g | _
      · rcases g with _ | g
        · simp at h
          subst h
          exact ⟨rfl, rfl, le_refl _, Or.inl ⟨rfl, rfl, rfl, Or.inr (Or.inl rfl)⟩⟩
        · simp at h
      · rcases g with _ | g <;> simp at h
      · rw [step_advance, advance_eq_none_of_runG _ _ 0 (by simp)] at h
        cases h
    · rcases a with g | g | _
      · rcases g with _ | g
        · simp [callerFrom, hmiss] at h
          subst h
          exact ⟨rfl, rfl, le_refl _, Or.inl ⟨rfl, rfl, rfl, Or.inr (Or.inr rfl)⟩⟩
        · simp [callerFrom] at h
      · rcases g with _ | g <;> simp [callerFrom] at h
      · rw [step_advance, advance_eq_none_of_runG _ _ 0 (by simp [callerFrom, hmiss])] at h
        cases h
    · rcases a with g | g | _
      · rcases g with _ | g
        · simp [callerFrom] at h
          subst h
          refine ⟨rfl, rfl, le_refl _, Or.inr ⟨_, _, _, _, rfl, rfl, ?_, ?_⟩⟩ <;>
            simp [callerOKAt, backendOKAt]
        · simp [callerFrom] at h
      · rcases g with _ | g <;> simp [callerFrom] at h
      · rw [step_advance, advance_eq_none_of_runG _ _ 0 (by simp [callerFrom])] at h
        cases h
  · subst hgs hq
    cases cpc with
    | load => simp [callerOKAt] at hcal
    | spawn => simp [callerOKAt] at hcal
    | select ch =>
      obtain ⟨rfl, hsel⟩ := hcal
      cases bpc with
      | call =>
        obtain ⟨rfl, rfl, rfl, rfl⟩ := hbk
        rcases a with g | g | _
        · rcases g with _ | _ | g
          · simp [callerFrom, backendFrom] at h
          · simp [callerFrom, backendFrom, hhttp] at h
            subst h
            refine ⟨rfl, rfl, le_refl _, Or.inr ⟨_, _, _, _, rfl, rfl, ?_, ?_⟩⟩ <;>
              simp [callerOKAt, backendOKAt]
          · simp [callerFrom, backendFrom] at h
        · rcases g with _ | _ | g
          · simp [callerFrom, backendFrom] at h
            obtain ⟨hd, rfl⟩ := h
            refine ⟨rfl, rfl, le_refl _, Or.inr ⟨_, _, _, _, rfl, rfl, ?_, ?_⟩⟩ <;>
              simp [callerOKAt, backendOKAt]
            exact Or.inl (by omega)
          · simp [callerFrom, backendFrom] at h
          · simp [callerFrom, backendFrom] at h
        · rw [step_advance, advance_eq_none_of_runG _ _ 1 (by simp [callerFrom, backendFrom, hhttp])] at h
          cases h
      | wait t x e =>
        obtain ⟨rfl, rfl, rfl, hle, rfl, rfl, rfl⟩ := hbk
        rcases a with g | g | _
        · rcases g with _ | _ | g
          · simp [callerFrom, backendFrom] at h
          · simp [callerFrom, backendFrom] at h
            obtain ⟨hd, rfl⟩ := h
            have hT : now = t0 + T := le_antisymm hle hd
            subst hT
            refine ⟨rfl, rfl, hnow, Or.inr ⟨_, _, _, _, rfl, rfl, ?_, ?_⟩⟩ <;>
              simp [callerOKAt, backendOKAt, bufOK, textOf]
            omega
          · simp [callerFrom, backendFrom] at h
        · rcases g with _ | _ | g
          · simp [callerFrom, backendFrom] at h
            obtain ⟨hd, rfl⟩ := h
            refine ⟨rfl, rfl, hnow, Or.inr ⟨_, _, _, _, rfl, rfl, ?_, ?_⟩⟩ <;>
              simp [callerOKAt, backendOKAt, hle]
            exact Or.inl (by omega)
          · simp [callerFrom, backendFrom] at h
          · simp [callerFrom, backendFrom] at h
        · simp [callerFrom, backendFrom] at h
          obtain ⟨⟨hq1, hq2⟩, hlt, rfl⟩ := h
          refine ⟨rfl, rfl, ?_, Or.inr ⟨_, _, _, _, rfl, rfl, ?_, ?_⟩⟩ <;>
            simp [callerOKAt, backendOKAt]
          · omega
      | since x =>
        obtain ⟨rfl, rfl, rfl, rfl, hbuf⟩ := hbk
        have hb : buf = some (textOf hr) := by
          rcases hbuf with hb | ⟨_, hb⟩
          · exact hb
          · cases hb
        subst hb
        rcases a with g | g | _
        · rcases g with _ | _ | g
          · simp [callerFrom, backendFrom] at h
            subst h
            refine ⟨rfl, rfl, hnow, Or.inr ⟨_, _, _, _, rfl, rfl, ?_, ?_⟩⟩ <;>
              simp [callerOKAt, backendOKAt, bufOK]
            exact Or.inr (by omega)
          · simp [callerFrom, backendFrom] at h
            by_cases hlt : D < (T : Int)
            · simp [hlt] at h
              subst h
              refine ⟨rfl, rfl, hnow, Or.inr ⟨_, _, _, _, rfl, rfl, ?_, ?_⟩⟩ <;>
                simp [callerOKAt, backendOKAt, bufOK, finalCache, hlt]
              omega
            · simp [hlt] at h
              subst h
              refine ⟨rfl, rfl, hnow, Or.inr ⟨_, _, _, _, rfl, rfl, ?_, ?_⟩⟩ <;>
                simp [callerOKAt, backendOKAt, bufOK, finalCache, hlt]
              omega
          · simp [callerFrom, backendFrom] at h
        · rcases g with _ | _ | g
          · simp [callerFrom, backendFrom] at h
            obtain ⟨hd, rfl⟩ := h
            refine ⟨rfl, rfl, hnow, Or.inr ⟨_, _, _, _, rfl, rfl, ?_, ?_⟩⟩ <;>
              simp [callerOKAt, backendOKAt, bufOK, hd]
          · simp [callerFrom, backendFrom] at h
          · simp [callerFrom, backendFrom] at h
        · rw [step_advance, advance_eq_none_of_runG _ _ 0 (by simp [callerFrom, backendFrom])] at h
          cases h
      | close =>
        obtain ⟨rfl, rfl, rfl, hbuf⟩ := hbk
        have hb : buf = some (textOf hr) := by
          rcases hbuf with hb | ⟨_, hb⟩
          · exact hb
          · cases hb
        subst hb
        rcases a with g | g | _
        · rcases g with _ | _ | g
          · simp [callerFrom, backendFrom] at h
            subst h
            refine ⟨rfl, rfl, hnow, Or.inr ⟨_, _, _, _, rfl, rfl, ?_, ?_⟩⟩ <;>
              simp [callerOKAt, backendOKAt, bufOK]
            exact Or.inr (by omega)
          · simp [callerFrom, backendFrom] at h
            subst h
            refine ⟨rfl, rfl, hnow, Or.inr ⟨_, _, _, _, rfl, rfl, ?_, ?_⟩⟩ <;>
              simp [callerOKAt, backendOKAt, bufOK]
            omega
          · simp [callerFrom, backendFrom] at h
        · rcases g with _ | _ | g
          · simp [callerFrom, backendFrom] at h
            obtain ⟨hd, rfl⟩ := h
            refine ⟨rfl, rfl, hnow, Or.inr ⟨_, _, _, _, rfl, rfl, ?_, ?_⟩⟩ <;>
              simp [callerOKAt, backendOKAt, bufOK, hd]
          · simp [callerFrom, backendFrom] at h
          · simp [callerFrom, backendFrom] at h
        · rw [step_advance, advance_eq_none_of_runG _ _ 1 (by simp [callerFrom, backendFrom])] at h
          cases h
      | done =>
        obtain ⟨rfl, rfl, rfl, hbuf⟩ := hbk
        have hb : buf = some (textOf hr) := by
          rcases hbuf with hb | ⟨_, hb⟩
          · exact hb
          · cases hb
        subst hb
        rcases a with g | g | _
        · rcases g with _ | _ | g
          · simp [callerFrom, backendFrom] at h
            subst h
            refine ⟨rfl, rfl, hnow, Or.inr ⟨_, _, _, _, rfl, rfl, ?_, ?_⟩⟩ <;>
              simp [callerOKAt, backendOKAt, bufOK]
            exact Or.inr (by omega)
          · simp [callerFrom, backendFrom] at h
          · simp [callerFrom, backendFrom] at h
        · rcases g with _ | _ | g
          · simp [callerFrom, backendFrom] at h
            obtain ⟨hd, rfl⟩ := h
            refine ⟨rfl, rfl, hnow, Or.inr ⟨_, _, _, _, rfl, rfl, ?_, ?_⟩⟩ <;>
              simp [callerOKAt, backendOKAt, bufOK, hd]
          · simp [callerFrom, backendFrom] at h
          · simp [callerFrom, backendFrom] at h
        · rw [step_advance, advance_eq_none_of_runG _ _ 0 (by simp [callerFrom, backendFrom])] at h
          cases h
    | ret r =>
      cases bpc with
      | call =>
        obtain ⟨rfl, rfl, rfl, rfl⟩ := hbk
        rcases a with g | g | _
        · rcases g with _ | _ | g
          · simp [callerFrom, backendFrom] at h
          · simp [callerFrom, backendFrom, hhttp] at h
            subst h
            refine ⟨rfl, rfl, le_refl _, Or.inr ⟨_, _, _, _, rfl, rfl, hcal, ?_⟩⟩
            simp [backendOKAt]
          · simp [callerFrom, backendFrom] at h
        · rcases g with _ | _ | g <;> simp [callerFrom, backendFrom] at h
        · rw [step_advance, advance_eq_none_of_runG _ _ 1 (by simp [callerFrom, backendFrom, hhttp])] at h
          cases h
      | wait t x e =>
        obtain ⟨rfl, rfl, rfl, hle, rfl, rfl, rfl⟩ := hbk
        rcases a with g | g | _
        · rcases g with _ | _ | g
          · simp [callerFrom, backendFrom] at h
          · simp [callerFrom, backendFrom] at h
            obtain ⟨hd, rfl⟩ := h
            have hT : now = t0 + T := le_antisymm hle hd
            subst hT
            refine ⟨rfl, rfl, hnow, Or.inr ⟨_, _, _, _, rfl, rfl, hcal, ?_⟩⟩
            simp [backendOKAt, bufOK, textOf]
          · simp [callerFrom, backendFrom] at h
        · rcases g with _ | _ | g <;> simp [callerFrom, backendFrom] at h
        · simp [callerFrom, backendFrom] at h
          obtain ⟨hq1, hlt, rfl⟩ := h
          refine ⟨rfl, rfl, ?_, Or.inr ⟨_, _, _, _, rfl, rfl, hcal, ?_⟩⟩
          · show t0 ≤ t0 + (T : Int)
            omega
          · simp [backendOKAt]
      | since x =>
        obtain ⟨rfl, rfl, rfl, rfl, hbuf⟩ := hbk
        rcases a with g | g | _
        · rcases g with _ | _ | g
          · simp [callerFrom, backendFrom] at h
          · simp [callerFrom, backendFrom] at h
            by_cases hlt : D < (T : Int)
            · simp [hlt] at h
              subst h
              refine ⟨rfl, rfl, hnow, Or.inr ⟨_, _, _, _, rfl, rfl, hcal, ?_⟩⟩
              simp [backendOKAt, finalCache, hlt, hbuf]
            · simp [hlt] at h
              subst h
              refine ⟨rfl, rfl, hnow, Or.inr ⟨_, _, _, _, rfl, rfl, hcal, ?_⟩⟩
              simp [backendOKAt, finalCache, hlt, hbuf]
          · simp [callerFrom, backendFrom] at h
        · rcases g with _ | _ | g <;> simp [callerFrom, backendFrom] at h
        · rw [step_advance, advance_eq_none_of_runG _ _ 1 (by simp [callerFrom, backendFrom]; split <;> simp)] at h
          cases h
      | close =>
        obtain ⟨rfl, rfl, rfl, hbuf⟩ := hbk
        rcases a with g | g | _
        · rcases g with _ | _ | g
          · simp [callerFrom, backendFrom] at h
          · simp [callerFrom, backendFrom] at h
            subst h
            refine ⟨rfl, rfl, hnow, Or.inr ⟨_, _, _, _, rfl, rfl, hcal, ?_⟩⟩
            simp [backendOKAt, hbuf]
          · simp [callerFrom, backendFrom] at h
        · rcases g with _ | _ | g <;> simp [callerFrom, backendFrom] at h
        · rw [step_advance, advance_eq_none_of_runG _ _ 1 (by simp [callerFrom, backendFrom])] at h
          cases h
      | done =>
        obtain ⟨rfl, rfl, rfl, hbuf⟩ := hbk
        rcases a with g | g | _
        · rcases g with _ | _ | g <;> simp [callerFrom, backendFrom] at h
        · rcases g with _ | _ | g <;> simp [callerFrom, backendFrom] at h
        · simp [callerFrom, backendFrom] at h

theorem query_completes_at (http : Http) (c0 : SyncMap String String) (isFast : Bool) (Q : String)
    (D : Int) (t0 : Int) (T : Nat) (hr : HttpResult)
    (hmiss : SyncMap.Load c0 Q = none) (hhttp : http t0 isFast Q (100 * Second) = ⟨T, hr⟩) :
    ∃ acts s' r, exec http (directAt c0 isFast Q D t0) acts = some s' ∧ result s' 0 = some r ∧
      backendPc s' 1 = some .done := by
  have key : ∃ acts r, (exec http (directAt c0 isFast Q D t0) acts).map
      (fun s => (result s 0, backendPc s 1)) = some (some r, some .done) := by
    by_cases hT : T = 0
    · subst hT
      refine ⟨[.run 0, .run 0, .run 0, .run 1, .run 1, .run 0, .run 1, .run 1], textOf hr, ?_⟩
      refine exec_map_cons _ _ _ _ _ _ _ (by simp [directAt]; rfl) ?_
      refine exec_map_cons _ _ _ _ _ _ _ (by simp [hmiss]; rfl) ?_
      refine exec_map_cons _ _ _ _ _ _ _ (by simp; rfl) ?_
      refine exec_map_cons _ _ _ _ _ _ _ (by simp [hhttp]; rfl) ?_
      refine exec_map_cons _ _ _ _ _ _ _ (by simp; rfl) ?_
      refine exec_map_cons _ _ _ _ _ _ _ (by simp; rfl) ?_
      by_cases hD : D < 0
      · refine exec_map_cons _ _ _ _ _ _ _ (by simp [hD]; rfl) ?_
        refine exec_map_cons _ _ _ _ _ _ _ (by simp; rfl) ?_
        simp [exec, result, backendPc, textOf]
      · refine exec_map_cons _ _ _ _ _ _ _ (by simp [hD]; rfl) ?_
        refine exec_map_cons _ _ _ _ _ _ _ (by simp; rfl) ?_
        simp [exec, result, backendPc, textOf]
    · have hT0 : (0 : Int) < T := by omega
      have hTn : 0 < T := by omega
      have h1 : ¬ ((T : Int) ≤ 0) := by omega
      by_cases hD0 : D ≤ 0
      · refine ⟨[.run 0, .run 0, .run 0, .run 1, .expire 0, .advance, .run 1, .run 1, .run 1],
          stillWorking, ?_⟩
        have h2 : D < (T : Int) := by omega
        refine exec_map_cons _ _ _ _ _ _ _ (by simp [directAt]; rfl) ?_
        refine exec_map_cons _ _ _ _ _ _ _ (by simp [hmiss]; rfl) ?_
        refine exec_map_cons _ _ _ _ _ _ _ (by simp; rfl) ?_
        refine exec_map_cons _ _ _ _ _ _ _ (by simp [hhttp]; rfl) ?_
        refine exec_map_cons _ _ _ _ _ _ _ (by simp [hD0]; rfl) ?_
        refine exec_map_cons _ _ _ _ _ _ _ (by simp [h1, hT0, hTn]; rfl) ?_
        refine exec_map_cons _ _ _ _ _ _ _ (by simp; rfl) ?_
        refine exec_map_cons _ _ _ _ _ _ _ (by simp [h2]; rfl) ?_
        refine exec_map_cons _ _ _ _ _ _ _ (by simp; rfl) ?_
        simp [exec, result, backendPc]
      · by_cases hDT : D < T
        · refine ⟨[.run 0, .run 0, .run 0, .run 1, .advance, .expire 0, .advance, .run 1, .run 1,
            .run 1], stillWorking, ?_⟩
          have h2 : (0 : Int) < D := by omega
          have h3 : min (t0 + D) (t0 + (T : Int)) = t0 + D := by omega
          have h4 : ¬ ((T : Int) ≤ D) := by omega
          refine exec_map_cons _ _ _ _ _ _ _ (by simp [directAt]; rfl) ?_
          refine exec_map_cons _ _ _ _ _ _ _ (by simp [hmiss]; rfl) ?_
          refine exec_map_cons _ _ _ _ _ _ _ (by simp; rfl) ?_
          refine exec_map_cons _ _ _ _ _ _ _ (by simp [hhttp]; rfl) ?_
          refine exec_map_cons _ _ _ _ _ _ _ (by simp [hD0, h1, h2, h3, hTn]; rfl) ?_
          refine exec_map_cons _ _ _ _ _ _ _ (by simp; rfl) ?_
          refine exec_map_cons _ _ _ _ _ _ _ (by simp [h4, hDT]; rfl) ?_
          refine exec_map_cons _ _ _ _ _ _ _ (by simp; rfl) ?_
          refine exec_map_cons _ _ _ _ _ _ _ (by simp [hDT]; rfl) ?_
          refine exec_map_cons _ _ _ _ _ _ _ (by simp; rfl) ?_
          simp [exec, result, backendPc]
        · refine ⟨[.run 0, .run 0, .run 0, .run 1, .advance, .run 1, .run 0, .run 1, .run 1],
            textOf hr, ?_⟩
          have h3 : min (t0 + D) (t0 + (T : Int)) = t0 + T := by omega
          have h2 : (0 : Int) < D := by omega
          refine exec_map_cons _ _ _ _ _ _ _ (by simp [directAt]; rfl) ?_
          refine exec_map_cons _ _ _ _ _ _ _ (by simp [hmiss]; rfl) ?_
          refine exec_map_cons _ _ _ _ _ _ _ (by simp; rfl) ?_
          refine exec_map_cons _ _ _ _ _ _ _ (by simp [hhttp]; rfl) ?_
          refine exec_map_cons _ _ _ _ _ _ _ (by simp [hD0, h1, h2, h3, hT0, hTn]; rfl) ?_
          refine exec_map_cons _ _ _ _ _ _ _ (by simp; rfl) ?_
          refine exec_map_cons _ _ _ _ _ _ _ (by simp; rfl) ?_
          refine exec_map_cons _ _ _ _ _ _ _ (by simp [hDT]; rfl) ?_
          refine exec_map_cons _ _ _ _ _ _ _ (by simp; rfl) ?_
          simp [exec, result, backendPc, textOf]
  obtain ⟨acts, r, h⟩ := key
  obtain ⟨s', h1, h2⟩ := exec_map_some _ _ _ _ _ h
  simp only [Prod.mk.injEq] at h2
  exact ⟨acts, s', r, h1, h2.1, h2.2⟩
end

theorem QInvAt_exec (http : Http) (c0 : SyncMap String String) (isFast : Bool) (Q : String)
    (D : Int) (t0 : Int) (T : Nat) (hr : HttpResult)
    (hmiss : SyncMap.Load c0 Q = none) (hhttp : http t0 isFast Q (100 * Second) = ⟨T, hr⟩)
    (acts : List Act) :
    ∀ s s', QInvAt c0 isFast Q D t0 T hr s → exec http s acts = some s' → QInvAt c0 isFast Q D t0 T hr s' := by
  induction acts with
  | nil =>
    intro s s' hinv h
    simp [exec] at h
    exact h ▸ hinv
  | cons a rest ih =>
    intro s s' hinv h
    simp only [exec] at h
    cases hs : step http s a with
    | none => simp [hs] at h
    | some s1 =>
      simp only [hs, Option.some_bind] at h
      exact ih s1 s' (QInvAt_step http c0 isFast Q D t0 T hr hmiss hhttp s s1 a hinv hs) h

/-- What a direct call that misses the cache can return. -/
theorem query_result_cases_at (http : Http) (c0 : SyncMap String String) (isFast : Bool) (Q : String)
    (D : Int) (t0 : Int) (T : Nat) (hr : HttpResult)
    (hmiss : SyncMap.Load c0 Q = none) (hhttp : http t0 isFast Q (100 * Second) = ⟨T, hr⟩)
    (acts : List Act) (s' : Sys) (r : String)
    (hrun : exec http (directAt c0 isFast Q D t0) acts = some s') (hres : result s' 0 = some r) :
    (r = stillWorking ∧ D ≤ T) ∨ (r = textOf hr ∧ (T ≤ D ∨ T = 0)) := by
  have hinv := QInvAt_exec http c0 isFast Q D t0 T hr hmiss hhttp acts _ s'
    (QInvAt_init c0 isFast Q D t0 T hr) hrun
  obtain ⟨-, -, -, hph⟩ := hinv
  rcases hph with ⟨-, -, -, hgs⟩ | ⟨cpc, bpc, buf, closed, hgs, -, hcal, -⟩
  · rcases hgs with hgs | hgs | hgs <;> simp [result, hgs, callerFrom] at hres
  · cases cpc <;> simp [result, hgs, callerFrom] at hres
    subst hres
    exact hcal

/-- The cache during a direct call that misses the cache. -/
theorem query_cache_cases_at (http : Http) (c0 : SyncMap String String) (isFast : Bool) (Q : String)
    (D : Int) (t0 : Int) (T : Nat) (hr : HttpResult)
    (hmiss : SyncMap.Load c0 Q = none) (hhttp : http t0 isFast Q (100 * Second) = ⟨T, hr⟩)
    (acts : List Act) (s' : Sys)
    (hrun : exec http (directAt c0 isFast Q D t0) acts = some s') :
    s'.resultCache =
      if backendPc s' 1 = some .close ∨ backendPc s' 1 = some .done then finalCache c0 Q D T hr
      else c0 := by
  have hinv := QInvAt_exec http c0 isFast Q D t0 T hr hmiss hhttp acts _ s'
    (QInvAt_init c0 isFast Q D t0 T hr) hrun
  obtain ⟨-, -, -, hph⟩ := hinv
  rcases hph with ⟨-, hc, -, hgs⟩ | ⟨cpc, bpc, buf, closed, hgs, -, -, hbk⟩
  · rcases hgs with hgs | hgs | hgs <;> simp [backendPc, hgs, hc]
  · cases bpc <;> simp [backendOKAt] at hbk <;> simp [backendPc, hgs, backendFrom, hbk]

/-- The call made at instant 0. -/
theorem query_completes (http : Http) (c0 : SyncMap String String) (isFast : Bool) (Q : String)
    (D : Int) (T : Nat) (hr : HttpResult)
    (hmiss : SyncMap.Load c0 Q = none) (hhttp : http 0 isFast Q (100 * Second) = ⟨T, hr⟩) :
    ∃ acts s' r, exec http (direct c0 isFast Q D) acts = some s' ∧ result s' 0 = some r ∧
      backendPc s' 1 = some .done :=
  query_completes_at http c0 isFast Q D 0 T hr hmiss hhttp

theorem query_result_cases (http : Http) (c0 : SyncMap String String) (isFast : Bool) (Q : String)
    (D : Int) (T : Nat) (hr : HttpResult)
    (hmiss : SyncMap.Load c0 Q = none) (hhttp : http 0 isFast Q (100 * Second) = ⟨T, hr⟩)
    (acts : List Act) (s' : Sys) (r : String)
    (hrun : exec http (direct c0 isFast Q D) acts = some s') (hres : result s' 0 = some r) :
    (r = stillWorking ∧ D ≤ T) ∨ (r = textOf hr ∧ (T ≤ D ∨ T = 0)) :=
  query_result_cases_at http c0 isFast Q D 0 T hr hmiss hhttp acts s' r hrun hres

theorem query_cache_cases (http : Http) (c0 : SyncMap String String) (isFast : Bool) (Q : String)
    (D : Int) (T : Nat) (hr : HttpResult)
    (hmiss : SyncMap.Load c0 Q = none) (hhttp : http 0 isFast Q (100 * Second) = ⟨T, hr⟩)
    (acts : List Act) (s' : Sys)
    (hrun : exec http (direct c0 isFast Q D) acts = some s') :
    s'.resultCache =
      if backendPc s' 1 = some .close ∨ backendPc s' 1 = some .done then finalCache c0 Q D T hr
      else c0 :=
  query_cache_cases_at http c0 isFast Q D 0 T hr hmiss hhttp acts s' hrun

section
attribute [local simp] step runG expireG advance quiescent nextWake runCaller runBackend
  Query.run Query.expire Query.enter Query.wake wake Sys.setG Sys.emit completions
  List.range List.range.loop

theorem HitInv_step (http : Http) (c0 : SyncMap String String) (isFast : Bool) (Q : String)
    (D : Int) (v : String) (hv : SyncMap.Load c0 Q = some v)
    (s s' : Sys) (a : Act) (hinv : HitInv c0 isFast Q D v s) (h : step http s a = some s') :
    HitInv c0 isFast Q D v s' := by
  rcases s with ⟨now, requests, cache, chans, qchans, gs, trace⟩
  obtain ⟨h1, h2, h3, h4, h5, hph⟩ := hinv
  simp only at h1 h2 h3 h4 h5 hph
  subst h1 h2 h3 h4 h5
  rcases hph with ⟨ht, hgs | hgs⟩ | ⟨ht, hgs⟩ <;> subst ht hgs
  · rcases a with g | g | _
    · rcases g with _ | g
      · simp at h
        subst h
        exact ⟨rfl, rfl, rfl, rfl, rfl, Or.inl ⟨rfl, Or.inr rfl⟩⟩
      · simp at h
    · rcases g with _ | g <;> simp at h
    · simp at h
  · rcases a with g | g | _
    · rcases g with _ | g
      · simp [callerAt, hv] at h
        subst h
        exact ⟨rfl, rfl, rfl, rfl, rfl, Or.inr ⟨rfl, rfl⟩⟩
      · simp [callerAt] at h
    · rcases g with _ | g <;> simp [callerAt] at h
    · simp [callerAt, hv] at h
  · rcases a with g | g | _
    · rcases g with _ | g <;> simp [callerAt] at h
    · rcases g with _ | g <;> simp [callerAt] at h
    · simp [callerAt] at h
end

theorem HitInv_exec (http : Http) (c0 : SyncMap String String) (isFast : Bool) (Q : String)
    (D : Int) (v : String) (hv : SyncMap.Load c0 Q = some v) (acts : List Act) :
    ∀ s s', HitInv c0 isFast Q D v s → exec http s acts = some s' → HitInv c0 isFast Q D v s' := by
  induction acts with
  | nil =>
    intro s s' hinv h
    simp [exec] at h
    exact h ▸ hinv
  | cons a rest ih =>
    intro s s' hinv h
    simp only [exec] at h
    cases hs : step http s a with
    | none => simp [hs] at h
    | some s1 =>
      simp only [hs, Option.some_bind] at h
      exact ih s1 s' (HitInv_step http c0 isFast Q D v hv s s1 a hinv hs) h

theorem Load_Store {K V : Type} [DecidableEq K] (m : SyncMap K V) (k : K) (v : V) :
    SyncMap.Load (SyncMap.Store m k v) k = some v := by
  simp [SyncMap.Store, SyncMap.Load]

/-! ## The claims about `gpt.Query` -/

/-- C1. Cache hit in `Query`: when `resultCache` holds `v` for `Q` at the call
`Query(isFast, Q, D)`, the call returns (there is a schedule that makes it
return), and on every schedule it returns `v` and nothing else, `resultCache`
stays as it was, no goroutine is started and `completions` is never invoked. -/
theorem Query_cache_hit (http : Http) (c0 : SyncMap String String) (isFast : Bool) (Q : String)
    (D : Int) (v : String) (hv : SyncMap.Load c0 Q = some v) :
    (∃ acts s', exec http (direct c0 isFast Q D) acts = some s' ∧ result s' 0 = some v) ∧
    ∀ acts s', exec http (direct c0 isFast Q D) acts = some s' →
      (∀ r, result s' 0 = some r → r = v) ∧ s'.resultCache = c0 ∧ s'.gs.length = 1 ∧
      ∀ t m, (t, Event.invoked m) ∉ s'.trace := by
  constructor
  · refine ⟨[.run 0, .run 0], ?_⟩
    simp [exec, step, runG, runCaller, Query.run, Query.enter, Sys.setG, Sys.emit, direct, hv,
      result]
  · intro acts s' hrun
    have hinv := HitInv_exec http c0 isFast Q D v hv acts _ s'
      (by simp [HitInv, direct]) hrun
    obtain ⟨-, -, hc, -, -, hph⟩ := hinv
    rcases hph with ⟨ht, hgs | hgs⟩ | ⟨ht, hgs⟩
    · simp [result, hgs, hc, ht]
    · simp [result, hgs, hc, ht, callerAt]
    · simp [result, hgs, hc, ht, callerAt]

/-- C1 at a concrete input: the cache holds "42" for "X". -/
theorem Query_cache_hit_witness :
    SyncMap.Load [("X", "42")] "X" = some "42" ∧
    ∀ acts s', exec (answers 5 "other") (direct [("X", "42")] true "X" (30 * Second)) acts = some s' →
      (∀ r, result s' 0 = some r → r = "42") ∧ s'.resultCache = [("X", "42")] :=
  ⟨rfl, fun acts s' h =>
    let p := (Query_cache_hit (answers 5 "other") [("X", "42")] true "X" (30 * Second) "42" rfl).2
      acts s' h
    ⟨p.1, p.2.1⟩⟩

/-- C2. Cache write rule of `Query` on a miss, for a call made at any instant
`t0` with timeout `D` whose exchange ends `T` after the call with text
`textOf hr`: the goroutine runs to its end on some schedule, and on every
schedule, once it is past gpt.go:66-70, `resultCache` is the old cache with `Q`
stored to that text when `T > D`, and the old cache when `T ≤ D`; before that
point the cache is the old one. The time is measured from the call, whatever
the clock reads then. -/
theorem Query_cache_write (http : Http) (c0 : SyncMap String String) (isFast : Bool) (Q : String)
    (D : Int) (t0 : Int) (T : Nat) (hr : HttpResult)
    (hmiss : SyncMap.Load c0 Q = none) (hhttp : http t0 isFast Q (100 * Second) = ⟨T, hr⟩) :
    (∃ acts s', exec http (directAt c0 isFast Q D t0) acts = some s' ∧
      backendPc s' 1 = some .done) ∧
    ∀ acts s', exec http (directAt c0 isFast Q D t0) acts = some s' →
      ((backendPc s' 1 = some .close ∨ backendPc s' 1 = some .done) →
        (D < T → s'.resultCache = SyncMap.Store c0 Q (textOf hr) ∧
          SyncMap.Load s'.resultCache Q = some (textOf hr)) ∧
        (T ≤ D → s'.resultCache = c0 ∧ SyncMap.Load s'.resultCache Q = none)) ∧
      (¬ (backendPc s' 1 = some .close ∨ backendPc s' 1 = some .done) → s'.resultCache = c0) := by
  constructor
  · obtain ⟨acts, s', r, h1, -, h3⟩ := query_completes_at http c0 isFast Q D t0 T hr hmiss hhttp
    exact ⟨acts, s', h1, h3⟩
  · intro acts s' hrun
    have hc := query_cache_cases_at http c0 isFast Q D t0 T hr hmiss hhttp acts s' hrun
    constructor
    · intro hpast
      rw [if_pos hpast] at hc
      constructor
      · intro hlt
        have : s'.resultCache = SyncMap.Store c0 Q (textOf hr) := by
          rw [hc, finalCache, if_pos hlt]
        exact ⟨this, by rw [this]; exact Load_Store c0 Q (textOf hr)⟩
      · intro hle
        have : s'.resultCache = c0 := by
          rw [hc, finalCache, if_neg (not_lt.mpr hle)]
        exact ⟨this, by rw [this]; exact hmiss⟩
    · intro hnot
      rw [if_neg hnot] at hc
      exact hc

/-- C2 at concrete inputs, the call made when the clock reads 10 s: the backend
answers "ok" after 2 s; a caller that waits 3 s leaves the cache empty on every
schedule, and for a caller that waits 1 s the cache holds "ok" for "X" once the
goroutine is past gpt.go:66-70. -/
theorem Query_cache_write_witness :
    SyncMap.Load ([] : SyncMap String String) "X" = none ∧
    (∀ acts s', exec (answers 2000000000 "ok") (directAt [] true "X" (3 * Second) (10 * Second))
        acts = some s' → s'.resultCache = []) ∧
    (∀ acts s', exec (answers 2000000000 "ok") (directAt [] true "X" (1 * Second) (10 * Second))
        acts = some s' → backendPc s' 1 = some .done → s'.resultCache = [("X", "ok")]) :=
  ⟨rfl, fun acts s' h => by
    have p := (Query_cache_write (answers 2000000000 "ok") [] true "X" (3 * Second)
      (10 * Second) 2000000000 (.body { Choices := [{ Text := "ok" }] }) rfl rfl).2 acts s' h
    by_cases hp : backendPc s' 1 = some .close ∨ backendPc s' 1 = some .done
    · exact ((p.1 hp).2 (by decide)).1
    · exact p.2 hp,
   fun acts s' h hd =>
    ((((Query_cache_write (answers 2000000000 "ok") [] true "X" (1 * Second)
      (10 * Second) 2000000000 (.body { Choices := [{ Text := "ok" }] }) rfl rfl).2 acts s' h).1
      (Or.inr hd)).1 (by decide)).1⟩

/-- C3, counterexample: with `D = T = 1 s` the result "ok" is already in the
channel when `select` runs, and `Query` may still return the sentinel. -/
theorem Query_tie_returns_sentinel :
    (exec (answers 1000000000 "ok") (direct [] true "X" (1 * Second))
        [.run 0, .run 0, .run 0, .run 1, .advance, .run 1, .expire 0]).bind (result · 0)
      = some stillWorking ∧
    textOf (.body { Choices := [{ Text := "ok" }] }) = "ok" ∧ stillWorking ≠ "ok" := by
  decide

/-- C3 as amended. Deadline racing in `Query` on a miss, for a call made at any
instant `t0` whose exchange ends `T` after the call: the call returns on some
schedule, and on every schedule it returns the sentinel when `D < T` (and
`T > 0`), the text of the backend when `T < D`, and one of the two when
`D = T`. The time is measured from the call, whatever the clock reads then. -/
theorem Query_deadline_race (http : Http) (c0 : SyncMap String String) (isFast : Bool)
    (Q : String) (D : Int) (t0 : Int) (T : Nat) (hr : HttpResult)
    (hmiss : SyncMap.Load c0 Q = none) (hhttp : http t0 isFast Q (100 * Second) = ⟨T, hr⟩) :
    (∃ acts s' r, exec http (directAt c0 isFast Q D t0) acts = some s' ∧
      result s' 0 = some r) ∧
    ∀ acts s' r, exec http (directAt c0 isFast Q D t0) acts = some s' → result s' 0 = some r →
      (D < T → 0 < T → r = stillWorking) ∧ (T < D → r = textOf hr) ∧
      (r = stillWorking ∨ r = textOf hr) := by
  constructor
  · obtain ⟨acts, s', r, h1, h2, -⟩ := query_completes_at http c0 isFast Q D t0 T hr hmiss hhttp
    exact ⟨acts, s', r, h1, h2⟩
  · intro acts s' r hrun hres
    have hc := query_result_cases_at http c0 isFast Q D t0 T hr hmiss hhttp acts s' r hrun hres
    refine ⟨?_, ?_, ?_⟩
    · intro hlt hpos
      rcases hc with ⟨h, -⟩ | ⟨-, h⟩
      · exact h
      · omega
    · intro hlt
      rcases hc with ⟨-, h⟩ | ⟨h, -⟩
      · omega
      · exact h
    · rcases hc with ⟨h, -⟩ | ⟨h, -⟩
      · exact Or.inl h
      · exact Or.inr h

/-- C3 as amended, at concrete inputs, the call made when the clock reads 10 s:
the backend answers "ok" after 2 s; a caller that waits 1 s gets the sentinel and
a caller that waits 3 s gets "ok", on every schedule. -/
theorem Query_deadline_race_witness :
    SyncMap.Load ([] : SyncMap String String) "X" = none ∧
    (∀ acts s' r, exec (answers 2000000000 "ok") (directAt [] true "X" (1 * Second) (10 * Second))
        acts = some s' → result s' 0 = some r → r = stillWorking) ∧
    (∀ acts s' r, exec (answers 2000000000 "ok") (directAt [] true "X" (3 * Second) (10 * Second))
        acts = some s' → result s' 0 = some r → r = "ok") :=
  ⟨rfl, fun acts s' r h hres =>
    ((Query_deadline_race (answers 2000000000 "ok") [] true "X" (1 * Second) (10 * Second)
      2000000000 (.body { Choices := [{ Text := "ok" }] }) rfl rfl).2 acts s' r h hres).1
      (by decide) (by decide),
   fun acts s' r h hres =>
    ((Query_deadline_race (answers 2000000000 "ok") [] true "X" (3 * Second) (10 * Second)
      2000000000 (.body { Choices := [{ Text := "ok" }] }) rfl rfl).2 acts s' r h hres).2.1
      (by decide)⟩

/-- C8, counterexample: two errors of the backend give two different texts. -/
theorem Query_error_text_varies :
    (exec (fails 1000000000 "EOF") (direct [] true "X" (30 * Second))
        [.run 0, .run 0, .run 0, .run 1, .advance, .run 1, .run 0]).bind (result · 0)
      = some "发生错误「EOF」，您重试一下" ∧
    (exec (fails 1000000000 "timeout") (direct [] true "X" (30 * Second))
        [.run 0, .run 0, .run 0, .run 1, .advance, .run 1, .run 0]).bind (result · 0)
      = some "发生错误「timeout」，您重试一下" ∧
    "发生错误「EOF」，您重试一下" ≠ "发生错误「timeout」，您重试一下" := by
  decide

/-- C8 as amended. Error conversion in `Query`: when the exchange fails with
the error `e` after `T`, the call returns on some schedule; on every schedule
what it returns is a string, which is the sentence built around the text of the
error, `发生错误「e」，您重试一下`, when `T < D`, and the same sentence is what the
cache holds for `Q` once the goroutine is past gpt.go:66-70 when `D < T`. -/
theorem Query_error_text (http : Http) (c0 : SyncMap String String) (isFast : Bool)
    (Q : String) (D : Int) (T : Nat) (e : String)
    (hmiss : SyncMap.Load c0 Q = none) (hhttp : http 0 isFast Q (100 * Second) = ⟨T, .fail e⟩) :
    (∃ acts s' r, exec http (direct c0 isFast Q D) acts = some s' ∧ result s' 0 = some r ∧
      backendPc s' 1 = some .done) ∧
    ∀ acts s', exec http (direct c0 isFast Q D) acts = some s' →
      (∀ r, result s' 0 = some r → T < D → r = "发生错误「" ++ e ++ "」，您重试一下") ∧
      (backendPc s' 1 = some .close ∨ backendPc s' 1 = some .done → D < T →
        SyncMap.Load s'.resultCache Q = some ("发生错误「" ++ e ++ "」，您重试一下")) := by
  have htext : textOf (.fail e) = "发生错误「" ++ e ++ "」，您重试一下" := rfl
  constructor
  · exact query_completes http c0 isFast Q D T (.fail e) hmiss hhttp
  · intro acts s' hrun
    constructor
    · intro r hres hlt
      rcases query_result_cases http c0 isFast Q D T (.fail e) hmiss hhttp acts s' r hrun hres with
        ⟨-, h⟩ | ⟨h, -⟩
      · omega
      · rw [h, htext]
    · intro hpast hlt
      have hc := query_cache_cases http c0 isFast Q D T (.fail e) hmiss hhttp acts s' hrun
      rw [if_pos hpast, finalCache, if_pos hlt] at hc
      rw [hc, Load_Store, htext]

/-- C8 as amended, at a concrete input: the exchange fails with "EOF" after
1 s and the caller waits 30 s. -/
theorem Query_error_text_witness :
    SyncMap.Load ([] : SyncMap String String) "X" = none ∧
    ∀ acts s' r, exec (fails 1000000000 "EOF") (direct [] true "X" (30 * Second)) acts = some s' →
      result s' 0 = some r → r = "发生错误「EOF」，您重试一下" :=
  ⟨rfl, fun acts s' r h hres =>
    ((Query_error_text (fails 1000000000 "EOF") [] true "X" (30 * Second) 1000000000 "EOF"
      rfl rfl).2 acts s' h).1 r hres (by decide)⟩

/-! ## The claim about `completions` -/

theorem trimmed_head (l : List Char) (ch : Char)
    (h : ((l.dropWhile IsSpace).rdropWhile IsSpace).head? = some ch) : IsSpace ch = false := by
  obtain ⟨t, ht⟩ := List.rdropWhile_prefix IsSpace (l.dropWhile IsSpace)
  have hhead : (l.dropWhile IsSpace).head? = some ch := by
    rw [← ht]
    cases hl : (l.dropWhile IsSpace).rdropWhile IsSpace with
    | nil => simp [hl] at h
    | cons x xs =>
      rw [hl] at h
      simpa using h
  have hnot := List.head?_dropWhile_not IsSpace l
  rw [hhead] at hnot
  exact hnot

theorem trimmed_last (l : List Char) (ch : Char)
    (h : ((l.dropWhile IsSpace).rdropWhile IsSpace).getLast? = some ch) : IsSpace ch = false := by
  have hne : (l.dropWhile IsSpace).rdropWhile IsSpace ≠ [] := by
    intro h0
    rw [h0] at h
    simp at h
  have hnot := List.rdropWhile_last_not IsSpace (l.dropWhile IsSpace) hne
  rw [List.getLast?_eq_getLast _ hne] at h
  simp only [Option.some.injEq] at h
  rw [h] at hnot
  simpa using hnot

theorem TrimSpace_head (s : String) (ch : Char) (h : (TrimSpace s).toList.head? = some ch) :
    IsSpace ch = false :=
  trimmed_head s.toList ch h

theorem TrimSpace_last (s : String) (ch : Char) (h : (TrimSpace s).toList.getLast? = some ch) :
    IsSpace ch = false :=
  trimmed_last s.toList ch h

/-- C10, counterexample: a first choice that carries the artifact twice, or
after a blank, comes back from `completions` beginning with the artifact. -/
theorem completions_keeps_artifact :
    (completions (answers 0 "？？你好") 0 true "hi" (100 * Second)).2 = ("？你好", none) ∧
    (completions (answers 0 " ？你好") 0 true "hi" (100 * Second)).2 = ("？你好", none) ∧
    artifact.toList.isPrefixOf "？你好".toList = true := by
  decide

/-- C10 as amended. Result cleaning in `completions`: for a response with at
least one choice the returned text is `TrimSpace (TrimPrefix text "？")` of the
first choice, with a nil error: one leading "？" is dropped when the text
begins with it, then the white space around is dropped, so the returned text
has no leading and no trailing white space. -/
theorem completions_trims (http : Http) (now : Int) (isFast : Bool) (msg : String) (timeout : Int)
    (delay : Nat) (data : response) (c : choiceItem) (rest : List choiceItem)
    (hhttp : http now isFast msg timeout = ⟨delay, .body data⟩)
    (hchoices : data.Choices = c :: rest) :
    (completions http now isFast msg timeout).2 = (TrimSpace (TrimPrefix c.Text "？"), none) ∧
    (∀ t, c.Text = "？" ++ t → (completions http now isFast msg timeout).2.1 = TrimSpace t) ∧
    (∀ ch, (completions http now isFast msg timeout).2.1.toList.head? = some ch →
      IsSpace ch = false) ∧
    (∀ ch, (completions http now isFast msg timeout).2.1.toList.getLast? = some ch →
      IsSpace ch = false) := by
  have hval : (completions http now isFast msg timeout).2
      = (TrimSpace (TrimPrefix c.Text "？"), none) := by
    simp [completions, hhttp, completionsResult, hchoices, artifact]
  refine ⟨hval, ?_, ?_, ?_⟩
  · intro t ht
    rw [hval, ht]
    simp only [TrimPrefix]
    have h1 : ("？" ++ t).toList = "？".toList ++ t.toList := by simp
    rw [h1]
    simp
  · intro ch h
    rw [hval] at h
    exact TrimSpace_head _ ch h
  · intro ch h
    rw [hval] at h
    exact TrimSpace_last _ ch h

/-- C10 as amended, at a concrete response. -/
theorem completions_trims_witness :
    (completions (answers 3 "？ 你好 \n") 0 true "hi" (100 * Second)).2 = ("你好", none) :=
  (completions_trims (answers 3 "？ 你好 \n") 0 true "hi" (100 * Second) 3
    { Choices := [{ Text := "？ 你好 \n" }] } { Text := "？ 你好 \n" } [] rfl rfl).1.trans
    (by decide)

/-! ## The claims about `handler.ReceiveMsg` -/

theorem sending_eq_some (c : Nat) (x : G) (wk : Worker) (r : String)
    (h : sending c x = some (wk, r)) : x = .worker wk ∧ wk.pc = .send r ∧ wk.ch = c := by
  cases x with
  | worker w =>
    simp only [sending] at h
    split at h
    · split at h
      · simp only [Option.some.injEq, Prod.mk.injEq] at h
        obtain ⟨rfl, rfl⟩ := h
        exact ⟨rfl, by assumption, by assumption⟩
      · simp at h
    · simp at h
  | attempt a => simp [sending] at h
  | caller c' => simp [sending] at h
  | backend b => simp [sending] at h

theorem sending_worker (c : Nat) (wk : Worker) (r : String) (hpc : wk.pc = .send r)
    (hch : wk.ch = c) : sending c (.worker wk) = some (wk, r) := by
  simp [sending, hpc, hch]

theorem findSender_eq_some (c : Nat) (gs : List G) :
    ∀ (w : Nat) (wk : Worker) (r : String), gs[w]? = some (.worker wk) → wk.pc = .send r →
      wk.ch = c →
      (∀ (k : Nat) (wk' : Worker) (r' : String), gs[k]? = some (.worker wk') →
        wk'.pc = .send r' → wk'.ch = c → k = w) →
      findSender gs c = some (w, wk, r) := by
  induction gs with
  | nil =>
    intro w wk r hw
    simp at hw
  | cons x xs ih =>
    intro w wk r hw hpc hch huniq
    cases w with
    | zero =>
      simp only [List.getElem?_cons_zero, Option.some.injEq] at hw
      subst hw
      simp [findSender, sending_worker c wk r hpc hch]
    | succ w =>
      simp only [List.getElem?_cons_succ] at hw
      have hx : sending c x = none := by
        cases hs : sending c x with
        | none => rfl
        | some p =>
          obtain ⟨wk', r'⟩ := p
          obtain ⟨hx, hpc', hch'⟩ := sending_eq_some c x wk' r' hs
          have := huniq 0 wk' r' (by simp [hx]) hpc' hch'
          omega
      have hrec := ih w wk r hw hpc hch (by
        intro k wk' r' hk hpc' hch'
        have := huniq (k + 1) wk' r' (by simpa using hk) hpc' hch'
        omega)
      simp [findSender, hx, hrec]

theorem findSender_eq_none (c : Nat) (gs : List G)
    (h : ∀ (k : Nat) (wk' : Worker) (r' : String), gs[k]? = some (.worker wk') →
      wk'.pc = .send r' → wk'.ch ≠ c) :
    findSender gs c = none := by
  induction gs with
  | nil => rfl
  | cons x xs ih =>
    have hx : sending c x = none := by
      cases hs : sending c x with
      | none => rfl
      | some p =>
        obtain ⟨wk', r'⟩ := p
        obtain ⟨hx, hpc', hch'⟩ := sending_eq_some c x wk' r' hs
        exact absurd hch' (h 0 wk' r' (by simp [hx]) hpc')
    have hrec := ih (by
      intro k wk' r' hk hpc'
      exact h (k + 1) wk' r' (by simpa using hk) hpc')
    simp [findSender, hx, hrec]

theorem lt_length_of_getElem? {α : Type} (l : List α) (g : Nat) (x : α) (h : l[g]? = some x) :
    g < l.length := by
  by_contra hge
  rw [List.getElem?_eq_none (Nat.le_of_not_lt hge)] at h
  cases h

theorem owners_split (gs : List G) (g : Nat) (old : G) (h : gs[g]? = some old) :
    owners gs = owners (gs.take g) ++ (owner old).toList ++ owners (gs.drop (g + 1)) := by
  have hlt := lt_length_of_getElem? gs g old h
  have hold : gs[g] = old := by
    rw [List.getElem?_eq_getElem hlt] at h
    exact Option.some.inj h
  have hsplit : gs = gs.take g ++ old :: gs.drop (g + 1) := by
    rw [← hold]
    exact (List.take_append_drop g gs).symm.trans (by rw [List.drop_eq_getElem_cons hlt])
  conv_lhs => rw [hsplit]
  simp only [owners, List.filterMap_append, List.filterMap_cons]
  cases owner old <;> simp

theorem owners_set (gs : List G) (g : Nat) (old x : G) (h : gs[g]? = some old) :
    owners (gs.set g x) = owners (gs.take g) ++ (owner x).toList ++ owners (gs.drop (g + 1)) := by
  have hlt := lt_length_of_getElem? gs g old h
  rw [List.set_eq_take_append_cons_drop, if_pos hlt]
  simp only [owners, List.filterMap_append, List.filterMap_cons]
  cases owner x <;> simp

theorem owners_set_same (gs : List G) (g : Nat) (old x : G) (h : gs[g]? = some old)
    (hx : owner x = owner old) : owners (gs.set g x) = owners gs := by
  rw [owners_set gs g old x h, owners_split gs g old h, hx]

theorem owners_append_none (gs : List G) (x : G) (hx : owner x = none) :
    owners (gs ++ [x]) = owners gs := by
  simp [owners, List.filterMap_append, hx]

theorem owners_set_new (gs : List G) (g : Nat) (old x : G) (c : Nat) (h : gs[g]? = some old)
    (hold : owner old = none) (hx : owner x = some c) :
    (owners (gs.set g x)).Perm (c :: owners gs) := by
  rw [owners_set gs g old x h, owners_split gs g old h, hold, hx]
  simp only [Option.toList_some, Option.toList_none, List.append_nil, List.append_assoc,
    List.singleton_append]
  exact List.perm_middle

theorem owners_handover (gs : List G) (g : Nat) (old x y : G) (c : Nat) (h : gs[g]? = some old)
    (hold : owner old = some c) (hx : owner x = none) (hy : owner y = some c) :
    (owners ((gs ++ [y]).set g x)).Perm (owners gs) := by
  have hlt := lt_length_of_getElem? gs g old h
  rw [List.set_append_left g x hlt]
  have h1 : owners (gs.set g x ++ [y]) = owners (gs.set g x) ++ [c] := by
    simp [owners, List.filterMap_append, hy]
  rw [h1, owners_set gs g old x h, owners_split gs g old h, hold, hx]
  simp only [Option.toList_some, Option.toList_none, List.append_nil, List.append_assoc,
    List.singleton_append]
  exact (List.perm_append_singleton c _).append_left _

theorem ChanInv_of_effect (s s' : Sys) (hinv : ChanInv s) (h : ChanEffect s s') : ChanInv s' := by
  obtain ⟨hnd, hlt⟩ := hinv
  rcases h with ⟨hlen, hperm⟩ | ⟨hlen, hperm⟩
  · refine ⟨hperm.nodup_iff.mpr hnd, ?_⟩
    intro c hc
    rw [hlen]
    exact hlt c (hperm.mem_iff.mp hc)
  · refine ⟨hperm.nodup_iff.mpr ?_, ?_⟩
    · refine List.nodup_cons.mpr ⟨?_, hnd⟩
      intro hmem
      exact Nat.lt_irrefl _ (hlt _ hmem)
    · intro c hc
      rw [hlen]
      rcases List.mem_cons.mp (hperm.mem_iff.mp hc) with rfl | hc'
      · exact Nat.lt_succ_self _
      · exact Nat.lt_succ_of_lt (hlt c hc')


theorem effect_set (s s1 : Sys) (g : Nat) (old x : G) (hg : s.gs[g]? = some old)
    (hx : owner x = owner old) (hchans : s1.chans.length = s.chans.length)
    (hgs : s1.gs = s.gs ∨ ∃ y, owner y = none ∧ s1.gs = s.gs ++ [y]) :
    ChanEffect s (s1.setG g x) := by
  refine Or.inl ⟨hchans, ?_⟩
  simp only [Sys.setG]
  rcases hgs with h1 | ⟨y, hy, h1⟩
  · rw [h1, owners_set_same s.gs g old x hg hx]
  · have hlt := lt_length_of_getElem? s.gs g old hg
    rw [h1, List.set_append_left g x hlt, owners_append_none _ y hy,
      owners_set_same s.gs g old x hg hx]

theorem Query_run_gs (s s1 : Sys) (f f1 : QFrame) (h : Query.run s f = some (s1, f1)) :
    s1.chans.length = s.chans.length ∧
      (s1.gs = s.gs ∨ ∃ y, owner y = none ∧ s1.gs = s.gs ++ [y]) := by
  simp only [Query.run] at h
  split at h
  · split at h
    · simp only [Option.some.injEq, Prod.mk.injEq] at h
      obtain ⟨rfl, -⟩ := h
      exact ⟨rfl, Or.inl rfl⟩
    · simp only [Option.some.injEq, Prod.mk.injEq] at h
      obtain ⟨rfl, -⟩ := h
      exact ⟨rfl, Or.inl rfl⟩
  · simp only [Option.some.injEq, Prod.mk.injEq] at h
    obtain ⟨rfl, -⟩ := h
    exact ⟨rfl, Or.inr ⟨G.backend _, rfl, rfl⟩⟩
  · split at h
    · split at h
      · simp only [Option.some.injEq, Prod.mk.injEq] at h
        obtain ⟨rfl, -⟩ := h
        exact ⟨rfl, Or.inl rfl⟩
      · split at h
        · simp only [Option.some.injEq, Prod.mk.injEq] at h
          obtain ⟨rfl, -⟩ := h
          exact ⟨rfl, Or.inl rfl⟩
        · cases h
    · cases h
  · cases h

theorem Query_expire_gs (s s1 : Sys) (f f1 : QFrame) (h : Query.expire s f = some (s1, f1)) :
    s1.chans.length = s.chans.length ∧
      (s1.gs = s.gs ∨ ∃ y, owner y = none ∧ s1.gs = s.gs ++ [y]) := by
  simp only [Query.expire] at h
  split at h
  · split at h
    · simp only [Option.some.injEq, Prod.mk.injEq] at h
      obtain ⟨rfl, -⟩ := h
      exact ⟨rfl, Or.inl rfl⟩
    · cases h
  · cases h

theorem findSender_spec (c : Nat) (gs : List G) :
    ∀ (w : Nat) (wk : Worker) (r : String), findSender gs c = some (w, wk, r) →
      gs[w]? = some (.worker wk) := by
  induction gs with
  | nil =>
    intro w wk r h
    simp [findSender] at h
  | cons x xs ih =>
    intro w wk r h
    simp only [findSender] at h
    cases hs : sending c x with
    | some p =>
      obtain ⟨wk', r'⟩ := p
      simp only [hs, Option.some.injEq, Prod.mk.injEq] at h
      obtain ⟨rfl, rfl, rfl⟩ := h
      cases x with
      | worker w0 =>
        simp only [sending] at hs
        split at hs
        · split at hs
          · simp only [Option.some.injEq, Prod.mk.injEq] at hs
            simp [hs.1]
          · cases hs
        · cases hs
      | attempt _ => simp [sending] at hs
      | caller _ => simp [sending] at hs
      | backend _ => simp [sending] at hs
    | none =>
      simp only [hs] at h
      cases hf : findSender xs c with
      | none => simp [hf] at h
      | some q =>
        obtain ⟨w', wk', r'⟩ := q
        simp only [hf, Option.map_some', Option.some.injEq, Prod.mk.injEq] at h
        obtain ⟨rfl, rfl, rfl⟩ := h
        simpa using ih w' wk' r' hf


theorem ReceiveMsg_effect (s s' : Sys) (g : Nat) (a : Attempt)
    (hg : s.gs[g]? = some (.attempt a)) (h : ReceiveMsg s g a = some s') : ChanEffect s s' := by
  simp only [ReceiveMsg] at h
  cases hpc : a.pc with
  | pending =>
    simp only [hpc] at h
    split at h
    · split at h
      · cases h
        exact effect_set s s g _ _ hg (by simp [owner, hpc]) rfl (Or.inl rfl)
      · cases h
        exact effect_set s s g _ _ hg (by simp [owner, hpc]) rfl (Or.inl rfl)
    · cases h
  | load =>
    simp only [hpc] at h
    split at h
    · cases h
      exact effect_set s s g _ _ hg (by simp [owner, hpc]) rfl (Or.inl rfl)
    · cases h
      exact effect_set s s g _ _ hg (by simp [owner, hpc]) rfl (Or.inl rfl)
  | store =>
    simp only [hpc] at h
    cases h
    refine Or.inr ⟨by simp [Sys.setG], ?_⟩
    simp only [Sys.setG]
    exact owners_set_new s.gs g _ _ _ hg (by simp [owner, hpc]) (by simp [owner])
  | go =>
    simp only [hpc] at h
    cases h
    refine Or.inl ⟨rfl, ?_⟩
    simp only [Sys.setG]
    exact owners_handover s.gs g _ _ _ a.ch hg (by simp [owner, hpc]) (by simp [owner])
      (by simp [owner])
  | select =>
    simp only [hpc] at h
    split at h
    · cases h
      exact effect_set s (s.emit _) g _ _ hg (by simp [owner, hpc]) rfl (Or.inl rfl)
    · split at h
      · rename_i w wk r hfind
        cases h
        have hw := findSender_spec a.ch s.gs w wk r hfind
        have hwg : w ≠ g := by
          intro hEq
          rw [hEq, hg] at hw
          cases hw
        refine Or.inl ⟨rfl, ?_⟩
        simp only [Sys.setG, Sys.emit]
        have hg' : (s.gs.set w (G.worker { wk with pc := .waitCtx }))[g]? = some (.attempt a) := by
          rw [List.getElem?_set_ne hwg]
          exact hg
        rw [owners_set_same _ g _ _ hg' (by simp [owner, hpc]),
          owners_set_same _ w _ _ hw (by simp [owner])]
      · cases h
    · cases h
  | done r =>
    simp [hpc] at h


theorem runWorker_effect (s s' : Sys) (g : Nat) (w : Worker)
    (hg : s.gs[g]? = some (.worker w)) (h : runWorker s g w = some s') : ChanEffect s s' := by
  simp only [runWorker] at h
  cases hpc : w.pc with
  | start =>
    simp only [hpc] at h
    cases h
    exact effect_set s s g _ _ hg (by simp [owner]) rfl (Or.inl rfl)
  | query f =>
    simp only [hpc] at h
    split at h
    · cases h
      exact effect_set s s g _ _ hg (by simp [owner]) rfl (Or.inl rfl)
    · cases hq : Query.run s f with
      | none => simp [hq] at h
      | some p =>
        obtain ⟨s1, f1⟩ := p
        simp only [hq, Option.map_some', Option.some.injEq] at h
        subst h
        obtain ⟨h1, h2⟩ := Query_run_gs s s1 f f1 hq
        exact effect_set s s1 g _ _ hg (by simp [owner]) h1 h2
  | send r => simp [hpc] at h
  | waitCtx =>
    simp only [hpc] at h
    split at h
    · cases h
      exact effect_set s s g _ _ hg (by simp [owner]) rfl (Or.inl rfl)
    · cases h
  | close =>
    simp only [hpc] at h
    cases h
    exact effect_set s _ g _ _ hg (by simp [owner]) (by simp [Sys.emit]) (Or.inl rfl)
  | delete =>
    simp only [hpc] at h
    cases h
    exact effect_set s _ g _ _ hg (by simp [owner]) (by simp [Sys.emit]) (Or.inl rfl)
  | done => simp [hpc] at h

theorem runCaller_effect (s s' : Sys) (g : Nat) (c : Caller)
    (hg : s.gs[g]? = some (.caller c)) (h : runCaller s g c = some s') : ChanEffect s s' := by
  simp only [runCaller] at h
  cases hpc : c.pc with
  | pending =>
    simp only [hpc] at h
    split at h
    · cases h
      exact effect_set s s g _ _ hg (by simp [owner]) rfl (Or.inl rfl)
    · cases h
  | query f =>
    simp only [hpc] at h
    cases hq : Query.run s f with
    | none => simp [hq] at h
    | some p =>
      obtain ⟨s1, f1⟩ := p
      simp only [hq, Option.map_some', Option.some.injEq] at h
      subst h
      obtain ⟨h1, h2⟩ := Query_run_gs s s1 f f1 hq
      exact effect_set s s1 g _ _ hg (by simp [owner]) h1 h2

theorem runBackend_effect (http : Http) (s s' : Sys) (g : Nat) (b : Backend)
    (hg : s.gs[g]? = some (.backend b)) (h : runBackend http s g b = some s') :
    ChanEffect s s' := by
  simp only [runBackend] at h
  cases hpc : b.pc with
  | call =>
    simp only [hpc] at h
    cases h
    exact effect_set s _ g _ _ hg (by simp [owner]) (by simp [Sys.emit]) (Or.inl rfl)
  | wait t x e =>
    simp only [hpc] at h
    split at h
    · split at h
      · split at h
        · cases h
          exact effect_set s _ g _ _ hg (by simp [owner]) rfl (Or.inl rfl)
        · cases h
      · cases h
    · cases h
  | since x =>
    simp only [hpc] at h
    split at h
    · cases h
      exact effect_set s _ g _ _ hg (by simp [owner]) (by simp [Sys.emit]) (Or.inl rfl)
    · cases h
      exact effect_set s s g _ _ hg (by simp [owner]) rfl (Or.inl rfl)
  | close =>
    simp only [hpc] at h
    split at h
    · cases h
      exact effect_set s _ g _ _ hg (by simp [owner]) rfl (Or.inl rfl)
    · cases h
  | done => simp [hpc] at h

theorem step_effect (http : Http) (s s' : Sys) (a : Act) (h : step http s a = some s') :
    ChanEffect s s' := by
  cases a with
  | run g =>
    simp only [step, runG] at h
    cases hg : s.gs[g]? with
    | none => simp [hg] at h
    | some x =>
      cases x with
      | attempt a0 =>
        simp only [hg] at h
        exact ReceiveMsg_effect s s' g a0 hg h
      | worker w =>
        simp only [hg] at h
        exact runWorker_effect s s' g w hg h
      | caller c =>
        simp only [hg] at h
        exact runCaller_effect s s' g c hg h
      | backend b =>
        simp only [hg] at h
        exact runBackend_effect http s s' g b hg h
  | expire g =>
    simp only [step, expireG] at h
    cases hg : s.gs[g]? with
    | none => simp [hg] at h
    | some x =>
      cases x with
      | attempt a0 =>
        simp only [hg] at h
        cases hpc : a0.pc <;> simp only [hpc] at h <;> try cases h
        split at h
        · cases h
          exact effect_set s s g _ _ hg (by simp [owner, hpc]) rfl (Or.inl rfl)
        · cases h
      | worker w =>
        simp only [hg] at h
        cases hpc : w.pc <;> simp only [hpc] at h <;> try cases h
        rename_i f
        cases hq : Query.expire s f with
        | none => simp [hq] at h
        | some p =>
          obtain ⟨s1, f1⟩ := p
          simp only [hq, Option.map_some', Option.some.injEq] at h
          subst h
          obtain ⟨h1, h2⟩ := Query_expire_gs s s1 f f1 hq
          exact effect_set s s1 g _ _ hg (by simp [owner]) h1 h2
      | caller c =>
        simp only [hg] at h
        cases hpc : c.pc <;> simp only [hpc] at h <;> try cases h
        rename_i f
        cases hq : Query.expire s f with
        | none => simp [hq] at h
        | some p =>
          obtain ⟨s1, f1⟩ := p
          simp only [hq, Option.map_some', Option.some.injEq] at h
          subst h
          obtain ⟨h1, h2⟩ := Query_expire_gs s s1 f f1 hq
          exact effect_set s s1 g _ _ hg (by simp [owner]) h1 h2
      | backend b => simp [hg] at h
  | advance =>
    simp only [step, advance] at h
    split at h
    · split at h
      · split at h
        · cases h
          exact Or.inl ⟨rfl, List.Perm.refl _⟩
        · cases h
      · cases h
    · cases h

theorem ChanInv_exec (http : Http) (acts : List Act) :
    ∀ s s', ChanInv s → exec http s acts = some s' → ChanInv s' := by
  induction acts with
  | nil =>
    intro s s' hinv h
    simp [exec] at h
    exact h ▸ hinv
  | cons a rest ih =>
    intro s s' hinv h
    simp only [exec] at h
    cases hs : step http s a with
    | none => simp [hs] at h
    | some s1 =>
      simp only [hs, Option.some_bind] at h
      exact ih s1 s' (ChanInv_of_effect s s1 hinv (step_effect http s s1 a hs)) h

theorem ChanInv_deliveries (l : List (Int × Msg)) : ChanInv (deliveries l) := by
  have h : owners (deliveries l).gs = [] := by
    simp only [deliveries, owners]
    induction l with
    | nil => rfl
    | cons x xs ih => simp [owner]
  simp [ChanInv, h]

theorem filterMap_nodup_index {α β : Type} (f : α → Option β) (l : List α) :
    (l.filterMap f).Nodup → ∀ (i j : Nat) (x y : α) (c : β), l[i]? = some x → l[j]? = some y →
      f x = some c → f y = some c → i = j := by
  induction l with
  | nil =>
    intro _ i j x y c hi
    simp at hi
  | cons a l ih =>
    intro hnd i j x y c hi hj hx hy
    have hmem : ∀ (k : Nat) (z : α), l[k]? = some z → f z = some c → c ∈ l.filterMap f := by
      intro k z hk hz
      exact List.mem_filterMap.mpr ⟨z, List.getElem?_mem hk, hz⟩
    have htail : (l.filterMap f).Nodup := by
      cases hfa : f a with
      | none => simpa [List.filterMap_cons, hfa] using hnd
      | some b =>
        rw [List.filterMap_cons, hfa] at hnd
        exact (List.nodup_cons.mp hnd).2
    cases i with
    | zero =>
      cases j with
      | zero => rfl
      | succ j =>
        simp only [List.getElem?_cons_zero, Option.some.injEq] at hi
        simp only [List.getElem?_cons_succ] at hj
        subst hi
        rw [List.filterMap_cons, hx] at hnd
        exact absurd (hmem j y hj hy) (List.nodup_cons.mp hnd).1
    | succ i =>
      cases j with
      | zero =>
        simp only [List.getElem?_cons_zero, Option.some.injEq] at hj
        simp only [List.getElem?_cons_succ] at hi
        subst hj
        rw [List.filterMap_cons, hy] at hnd
        exact absurd (hmem i x hi hx) (List.nodup_cons.mp hnd).1
      | succ j =>
        simp only [List.getElem?_cons_succ] at hi hj
        rw [ih htail i j x y c hi hj hx hy]

/-- In a state that satisfies `ChanInv`, two workers on one channel are one. -/
theorem worker_unique (s : Sys) (hinv : ChanInv s) (k w : Nat) (wk wk' : Worker)
    (hw : s.gs[w]? = some (.worker wk)) (hk : s.gs[k]? = some (.worker wk'))
    (hch : wk'.ch = wk.ch) : k = w :=
  filterMap_nodup_index owner s.gs hinv.1 k w _ _ wk.ch hk hw (by simp [owner, hch])
    (by simp [owner])

/-- The receive of a waiting call when one worker is the only sender on the
channel. -/
theorem single_delivery_of_unique (http : Http) (s : Sys) (w g : Nat) (wk : Worker)
    (a : Attempt) (r : String)
    (hw : s.gs[w]? = some (.worker wk)) (hsend : wk.pc = .send r)
    (hg : s.gs[g]? = some (.attempt a)) (hsel : a.pc = .select) (hch : a.ch = wk.ch)
    (hopen : s.chans[wk.ch]? = some false)
    (huniq : ∀ (k : Nat) (wk' : Worker) (r' : String), s.gs[k]? = some (.worker wk') →
      wk'.pc = .send r' → wk'.ch = wk.ch → k = w) :
    ∃ s', step http s (.run g) = some s' ∧
      replyOf s' g = some (.echo r) ∧ workerPc s' w = some .waitCtx ∧
      (∀ k, k ≠ g → k ≠ w → s'.gs[k]? = s.gs[k]?) ∧
      (∀ g', g' ≠ g → waitingOn s' g' = some wk.ch → step http s' (.run g') = none) := by
  have hfind := findSender_eq_some wk.ch s.gs w wk r hw hsend rfl huniq
  have hwg : w ≠ g := by
    intro h
    subst h
    rw [hw] at hg
    cases hg
  have hwlt : w < s.gs.length := by
    by_contra hlt
    rw [List.getElem?_eq_none (Nat.le_of_not_lt hlt)] at hw
    cases hw
  have hglt : g < s.gs.length := by
    by_contra hlt
    rw [List.getElem?_eq_none (Nat.le_of_not_lt hlt)] at hg
    cases hg
  obtain ⟨s', hs'⟩ : ∃ s', s' = ((s.emit (.echoed a.msg.MsgId r)).setG w
      (.worker { wk with pc := .waitCtx })).setG g (.attempt { a with pc := .done (.echo r) }) :=
    ⟨_, rfl⟩
  have hchans : s'.chans = s.chans := by rw [hs']; rfl
  have hget : ∀ k, s'.gs[k]? =
      if k = g then some (G.attempt { a with pc := .done (.echo r) })
      else if k = w then some (G.worker { wk with pc := .waitCtx }) else s.gs[k]? := by
    intro k
    rw [hs']
    simp only [Sys.setG, Sys.emit, List.getElem?_set, List.length_set]
    by_cases hkg : k = g
    · subst hkg
      simp [hglt]
    · by_cases hkw : k = w
      · subst hkw
        simp [hkg, Ne.symm hkg, hwlt]
      · simp [hkg, hkw, Ne.symm hkg, Ne.symm hkw]
  refine ⟨s', ?_, ?_, ?_, ?_, ?_⟩
  · rw [hs']
    simp [step, runG, hg, ReceiveMsg, hsel, hch, hopen, hfind]
  · simp [replyOf, hget]
  · simp [workerPc, hget, hwg]
  · intro k hkg hkw
    simp [hget, hkg, hkw]
  · intro g' hg' hwait
    simp only [waitingOn, hget, if_neg hg'] at hwait
    have hnone : findSender s'.gs wk.ch = none := by
      apply findSender_eq_none
      intro k wk' r' hk hpc' hch'
      rw [hget] at hk
      by_cases hkg : k = g
      · simp [hkg] at hk
      · by_cases hkw : k = w
        · subst hkw
          simp only [hkg, if_true, if_false, Option.some.injEq, G.worker.injEq] at hk
          rw [← hk] at hpc'
          cases hpc'
        · simp only [hkg, hkw, if_false] at hk
          exact hkw (huniq k wk' r' hk hpc' hch')
    by_cases hgw : g' = w
    · simp [hgw] at hwait
    · simp only [hgw, if_false] at hwait
      cases hx : s.gs[g']? with
      | none => simp [hx] at hwait
      | some x =>
        rw [hx] at hwait
        cases x with
        | attempt a' =>
          cases hpc : a'.pc <;> simp [hpc] at hwait
          have hx' : s'.gs[g']? = some (G.attempt a') := by
            rw [hget, if_neg hg', if_neg hgw, hx]
          simp [step, runG, hx', ReceiveMsg, hpc, hwait, hnone, hchans, hopen]
        | worker _ => simp at hwait
        | caller _ => simp at hwait
        | backend _ => simp at hwait

/-- C5 as amended. Outcome delivery in `ReceiveMsg`, in every state `s` the
process reaches from any deliveries `l`, when the worker `w` is blocked in its
send of `r` on the open session channel and the call `g` of `ReceiveMsg` is
waiting on that channel, whatever the number of calls waiting with it: the
receive of `g` is enabled, it makes `g` echo `r` and lets the worker go on,
every other goroutine is left as it was, and afterwards no other call waiting
on that channel can receive: the one send hands `r` to exactly one waiter. -/
theorem ReceiveMsg_single_delivery (http : Http) (l : List (Int × Msg)) (acts : List Act)
    (s : Sys) (w g : Nat) (wk : Worker) (a : Attempt) (r : String)
    (hreach : exec http (deliveries l) acts = some s)
    (hw : s.gs[w]? = some (.worker wk)) (hsend : wk.pc = .send r)
    (hg : s.gs[g]? = some (.attempt a)) (hsel : a.pc = .select) (hch : a.ch = wk.ch)
    (hopen : s.chans[wk.ch]? = some false) :
    ∃ s', step http s (.run g) = some s' ∧
      replyOf s' g = some (.echo r) ∧ workerPc s' w = some .waitCtx ∧
      (∀ k, k ≠ g → k ≠ w → s'.gs[k]? = s.gs[k]?) ∧
      (∀ g', g' ≠ g → waitingOn s' g' = some wk.ch → step http s' (.run g') = none) :=
  single_delivery_of_unique http s w g wk a r hw hsend hg hsel hch hopen
    (fun k wk' _ hk _ hch' =>
      worker_unique s (ChanInv_exec http acts _ s (ChanInv_deliveries l) hreach) k w wk wk'
        hw hk hch')

/-- C4, the failing input evaluated: two requests with message id 1 arrive
together; both look the id up before either stores its channel, both start a
worker, and both workers invoke the backend. -/
theorem ReceiveMsg_starts_two_workers :
    (exec (answers 2000000000 "hi") (deliveries [(0, hello), (0, hello)])
      [.run 0, .run 1, .run 0, .run 1, .run 0, .run 1, .run 0, .run 1,
       .run 2, .run 3, .run 2, .run 3, .run 2, .run 3, .run 4, .run 5]).map
      (fun s => (liveWorkers s 1, s.trace))
      = some (2, [(0, .invoked "hello"), (0, .invoked "hello")]) := by
  decide

/-- C5, counterexample: two calls with message id 1 are both waiting on the
session channel when the worker reaches its send of "hi"; the first one gets
"hi", the second one gets nothing and ends at its own deadline. -/
theorem ReceiveMsg_second_waiter_gets_nothing :
    (exec (answers 2000000000 "hi") (deliveries [(0, hello), (1 * Second, hello)])
      [.run 0, .run 0, .run 0, .run 0, .run 2, .run 2, .run 2, .run 3, .advance, .run 1, .run 1,
       .advance, .run 3, .run 2, .run 2]).map
      (fun s => (waitingOn s 0, waitingOn s 1, sendingOn s 2))
      = some (some 0, some 0, some (0, "hi")) ∧
    (exec (answers 2000000000 "hi") (deliveries [(0, hello), (1 * Second, hello)])
      [.run 0, .run 0, .run 0, .run 0, .run 2, .run 2, .run 2, .run 3, .advance, .run 1, .run 1,
       .advance, .run 3, .run 2, .run 2,
       .run 0, .run 3, .run 3, .advance, .expire 1, .advance, .run 2, .run 2, .run 2]).map
      (fun s => (replyOf s 0, replyOf s 1, workerPc s 2))
      = some (some (.echo "hi"), some .silent, some .done) := by
  decide

/-- C6, counterexample: in the scenario of the specification the third
delivery, arriving at 21 s, is answered at once with the sentinel of `Query`,
not with the backend's answer "hi there". -/
theorem ReceiveMsg_third_attempt_gets_sentinel :
    (exec (answers 20000000000 "hi there")
      (deliveries [(0, hello), (6 * Second, hello), (21 * Second, hello)])
      [.run 0, .run 0, .run 0, .run 0, .run 3, .run 3, .run 3, .run 4, .advance, .expire 0,
       .advance, .run 1, .run 1, .advance, .expire 1, .advance, .expire 3, .run 3, .advance,
       .run 4, .run 4, .run 4, .advance, .run 2, .run 2, .run 2]).map
      (fun s => (s.now, replyOf s 0, replyOf s 1, replyOf s 2))
      = some (21 * Second, some .silent, some .silent, some (.echo stillWorking)) ∧
    textOf (.body { Choices := [{ Text := "hi there" }] }) = "hi there" ∧
    stillWorking ≠ "hi there" := by
  decide


/-- C5 as amended, at the state `twoWaiting`, which the scenario of two
deliveries reaches: the second call takes "hi", and the first one can then not
receive. -/
theorem ReceiveMsg_single_delivery_witness :
    exec (answers 2000000000 "hi") (deliveries [(0, hello), (1 * Second, hello)])
      [.run 0, .run 0, .run 0, .run 0, .run 2, .run 2, .run 2, .run 3, .advance, .run 1, .run 1,
       .advance, .run 3, .run 2, .run 2] = some twoWaiting ∧
    ∃ s', step (answers 2000000000 "hi") twoWaiting (.run 1) = some s' ∧
      replyOf s' 1 = some (.echo "hi") ∧ step (answers 2000000000 "hi") s' (.run 0) = none := by
  have hreach : exec (answers 2000000000 "hi") (deliveries [(0, hello), (1 * Second, hello)])
      [.run 0, .run 0, .run 0, .run 0, .run 2, .run 2, .run 2, .run 3, .advance, .run 1, .run 1,
       .advance, .run 3, .run 2, .run 2] = some twoWaiting := by
    decide
  obtain ⟨s', h1, h2, -, h4, h5⟩ := ReceiveMsg_single_delivery (answers 2000000000 "hi")
    [(0, hello), (1 * Second, hello)] _ twoWaiting 2 1
    { id := 1, msg := "hello", ch := 0, deadline := 14000000000, pc := .send "hi" }
    { msg := hello, arrival := 1000000000, deadline := 6000000000, ch := 0, pc := .select }
    "hi" hreach rfl rfl rfl rfl rfl rfl
  refine ⟨hreach, s', h1, h2, h5 0 (by decide) ?_⟩
  have h0 := h4 0 (by decide) (by decide)
  simp only [waitingOn, h0]
  decide

/-- C6 as amended. The scenario of the specification, on every schedule: once
the third delivery (arriving at 21 s) has returned, what it wrote is the echo
of the sentinel of `Query` (made at 14 s), written at 21 s; the first two
deliveries wrote nothing; and `resultCache` holds the backend's answer for
"hello" (stored at 20 s). -/
theorem ReceiveMsg_scenario (acts : List Act) (s' : Sys) (r : Reply)
    (hrun : exec (answers 20000000000 "hi there")
      (deliveries [(0, hello), (6 * Second, hello), (21 * Second, hello)]) acts = some s')
    (hrep : replyOf s' 2 = some r) :
    r = .echo stillWorking ∧ s'.now = 21 * Second ∧
    replyOf s' 0 = some .silent ∧ replyOf s' 1 = some .silent ∧
    SyncMap.Load s'.resultCache "hello" = some "hi there" ∧
    deliveredAt s'.trace 1 = some (21 * Second) := by
  have hmem := exec_mem_reachable (answers 20000000000 "hi there")
    (deliveries [(0, hello), (6 * Second, hello), (21 * Second, hello)]) s' 30 acts
    (by decide) hrun
  have key : ∀ s ∈ reachable (answers 20000000000 "hi there") 30
      (deliveries [(0, hello), (6 * Second, hello), (21 * Second, hello)]),
      ∀ r, replyOf s 2 = some r →
        r = .echo stillWorking ∧ s.now = 21 * Second ∧
        replyOf s 0 = some .silent ∧ replyOf s 1 = some .silent ∧
        SyncMap.Load s.resultCache "hello" = some "hi there" ∧
        deliveredAt s.trace 1 = some (21 * Second) := by
    decide
  exact key s' hmem r hrep

/-- C6 as amended, on one schedule that runs the scenario to its end. -/
theorem ReceiveMsg_scenario_witness :
    ∃ s', exec (answers 20000000000 "hi there")
      (deliveries [(0, hello), (6 * Second, hello), (21 * Second, hello)])
      [.run 0, .run 0, .run 0, .run 0, .run 3, .run 3, .run 3, .run 4, .advance, .expire 0,
       .advance, .run 1, .run 1, .advance, .expire 1, .advance, .expire 3, .run 3, .advance,
       .run 4, .run 4, .run 4, .advance, .run 2, .run 2, .run 2] = some s' ∧
      replyOf s' 2 = some (.echo stillWorking) ∧
      SyncMap.Load s'.resultCache "hello" = some "hi there" := by
  have h1 : (exec (answers 20000000000 "hi there")
      (deliveries [(0, hello), (6 * Second, hello), (21 * Second, hello)])
      [.run 0, .run 0, .run 0, .run 0, .run 3, .run 3, .run 3, .run 4, .advance, .expire 0,
       .advance, .run 1, .run 1, .advance, .expire 1, .advance, .expire 3, .run 3, .advance,
       .run 4, .run 4, .run 4, .advance, .run 2, .run 2, .run 2]).bind (replyOf · 2)
      = some (.echo stillWorking) := by
    decide
  cases hs : exec (answers 20000000000 "hi there")
      (deliveries [(0, hello), (6 * Second, hello), (21 * Second, hello)])
      [.run 0, .run 0, .run 0, .run 0, .run 3, .run 3, .run 3, .run 4, .advance, .expire 0,
       .advance, .run 1, .run 1, .advance, .expire 1, .advance, .expire 3, .run 3, .advance,
       .run 4, .run 4, .run 4, .advance, .run 2, .run 2, .run 2] with
  | none =>
    rw [hs] at h1
    cases h1
  | some s' =>
    rw [hs] at h1
    exact ⟨s', rfl, h1, (ReceiveMsg_scenario _ s' _ hs h1).2.2.2.2.1⟩

/-- C7, counterexample: one delivery, the backend answering after 2 s in one
run and after 4 s in the other. The result is delivered at 2 s, respectively
4 s; the channel is closed and the id deleted at 14 s in both, 12 s,
respectively 10 s, after the delivery. -/
theorem worker_cleanup_interval_varies :
    (exec (answers 2000000000 "hi") (deliveries [(0, hello)])
      [.run 0, .run 0, .run 0, .run 0, .run 1, .run 1, .run 1, .run 2, .advance, .run 2, .run 1,
       .run 1, .run 0, .run 2, .run 2, .advance, .run 1, .run 1, .run 1]).map
      (fun s => (deliveredAt s.trace 1, closedAt s.trace 1, deletedAt s.trace 1))
      = some (some (2 * Second), some (14 * Second), some (14 * Second)) ∧
    (exec (answers 4000000000 "hi") (deliveries [(0, hello)])
      [.run 0, .run 0, .run 0, .run 0, .run 1, .run 1, .run 1, .run 2, .advance, .run 2, .run 1,
       .run 1, .run 0, .run 2, .run 2, .advance, .run 1, .run 1, .run 1]).map
      (fun s => (deliveredAt s.trace 1, closedAt s.trace 1, deletedAt s.trace 1))
      = some (some (4 * Second), some (14 * Second), some (14 * Second)) ∧
    14 * Second - 2 * Second ≠ 14 * Second - 4 * Second := by
  decide

theorem other_set (s s1 : Sys) (g w : Nat) (x : G) (wk : Worker) (hne : g ≠ w)
    (hw : s.gs[w]? = some (.worker wk)) (hk : Keeps s s1) : Other s (s1.setG g x) w wk := by
  obtain ⟨h1, h2, h3⟩ := hk
  refine ⟨h1, h2, Or.inl ?_⟩
  simp only [Sys.setG]
  rw [List.getElem?_set_ne hne]
  rcases h3 with h3 | ⟨y, h3⟩
  · rw [h3]
    exact hw
  · rw [h3, List.getElem?_append_left (lt_length_of_getElem? _ _ _ hw)]
    exact hw

theorem self_set (s s1 : Sys) (w : Nat) (x y : G) (hw : s.gs[w]? = some y) (hk : Keeps s s1) :
    (s1.setG w x).gs[w]? = some x := by
  obtain ⟨-, -, h3⟩ := hk
  have hlt := lt_length_of_getElem? _ _ _ hw
  simp only [Sys.setG]
  rcases h3 with h3 | ⟨z, h3⟩
  · rw [h3, List.getElem?_set_self hlt]
  · rw [h3, List.getElem?_set_self (by simp; omega)]

theorem Keeps_refl (s : Sys) : Keeps s s := ⟨rfl, ⟨[], (List.append_nil _).symm⟩, Or.inl rfl⟩

theorem Keeps_emit (s : Sys) (e : Event) : Keeps s (s.emit e) := ⟨rfl, ⟨_, rfl⟩, Or.inl rfl⟩

theorem Query_run_keeps (s s1 : Sys) (f f1 : QFrame) (h : Query.run s f = some (s1, f1)) :
    Keeps s s1 := by
  simp only [Query.run] at h
  split at h
  · split at h
    · simp only [Option.some.injEq, Prod.mk.injEq] at h
      obtain ⟨rfl, -⟩ := h
      exact Keeps_emit _ _
    · simp only [Option.some.injEq, Prod.mk.injEq] at h
      obtain ⟨rfl, -⟩ := h
      exact Keeps_refl _
  · simp only [Option.some.injEq, Prod.mk.injEq] at h
    obtain ⟨rfl, -⟩ := h
    exact ⟨rfl, ⟨[], (List.append_nil _).symm⟩, Or.inr ⟨_, rfl⟩⟩
  · split at h
    · split at h
      · simp only [Option.some.injEq, Prod.mk.injEq] at h
        obtain ⟨rfl, -⟩ := h
        exact ⟨rfl, ⟨_, rfl⟩, Or.inl rfl⟩
      · split at h
        · simp only [Option.some.injEq, Prod.mk.injEq] at h
          obtain ⟨rfl, -⟩ := h
          exact Keeps_emit _ _
        · cases h
    · cases h
  · cases h

theorem Query_expire_keeps (s s1 : Sys) (f f1 : QFrame) (h : Query.expire s f = some (s1, f1)) :
    Keeps s s1 := by
  simp only [Query.expire] at h
  split at h
  · split at h
    · simp only [Option.some.injEq, Prod.mk.injEq] at h
      obtain ⟨rfl, -⟩ := h
      exact Keeps_emit _ _
    · cases h
  · cases h

theorem findSender_sends (c : Nat) (gs : List G) :
    ∀ (w : Nat) (wk : Worker) (r : String), findSender gs c = some (w, wk, r) →
      wk.pc = .send r := by
  induction gs with
  | nil =>
    intro w wk r h
    simp [findSender] at h
  | cons x xs ih =>
    intro w wk r h
    simp only [findSender] at h
    cases hs : sending c x with
    | some p =>
      obtain ⟨wk1, r1⟩ := p
      simp only [hs, Option.some.injEq, Prod.mk.injEq] at h
      obtain ⟨-, rfl, rfl⟩ := h
      exact (sending_eq_some c x wk1 r1 hs).2.1
    | none =>
      simp only [hs] at h
      cases hf : findSender xs c with
      | none => simp [hf] at h
      | some q =>
        obtain ⟨w1, wk1, r1⟩ := q
        simp only [hf, Option.map_some', Option.some.injEq, Prod.mk.injEq] at h
        obtain ⟨-, rfl, rfl⟩ := h
        exact ih w1 wk1 r1 hf

theorem ReceiveMsg_other (s s' : Sys) (g w : Nat) (a : Attempt) (wk : Worker) (hne : g ≠ w)
    (hw : s.gs[w]? = some (.worker wk))
    (h : ReceiveMsg s g a = some s') : Other s s' w wk := by
  simp only [ReceiveMsg] at h
  cases hpc : a.pc with
  | pending =>
    simp only [hpc] at h
    split at h
    · split at h
      · cases h
        exact other_set s s g w _ wk hne hw (Keeps_refl s)
      · cases h
        exact other_set s s g w _ wk hne hw (Keeps_refl s)
    · cases h
  | load =>
    simp only [hpc] at h
    split at h
    · cases h
      exact other_set s s g w _ wk hne hw (Keeps_refl s)
    · cases h
      exact other_set s s g w _ wk hne hw (Keeps_refl s)
  | store =>
    simp only [hpc] at h
    cases h
    exact other_set s _ g w _ wk hne hw ⟨rfl, ⟨[], (List.append_nil _).symm⟩, Or.inl rfl⟩
  | go =>
    simp only [hpc] at h
    cases h
    exact other_set s _ g w _ wk hne hw ⟨rfl, ⟨[], (List.append_nil _).symm⟩, Or.inr ⟨_, rfl⟩⟩
  | select =>
    simp only [hpc] at h
    split at h
    · cases h
      exact other_set s (s.emit _) g w _ wk hne hw (Keeps_emit _ _)
    · split at h
      · rename_i w1 wk1 r hfind
        cases h
        have hw1 := findSender_spec a.ch s.gs w1 wk1 r hfind
        refine ⟨rfl, ⟨_, rfl⟩, ?_⟩
        simp only [Sys.setG, Sys.emit]
        rw [List.getElem?_set_ne hne]
        by_cases hEq : w1 = w
        · subst hEq
          rw [hw] at hw1
          cases hw1
          have hsend := findSender_sends a.ch s.gs w1 wk r hfind
          exact Or.inr ⟨⟨r, hsend⟩,
            List.getElem?_set_self (lt_length_of_getElem? _ _ _ hw)⟩
        · rw [List.getElem?_set_ne hEq]
          exact Or.inl hw
      · cases h
    · cases h
  | done r =>
    simp [hpc] at h


theorem runWorker_other (s s' : Sys) (g w : Nat) (x wk : Worker) (hne : g ≠ w)
    (hw : s.gs[w]? = some (.worker wk)) (h : runWorker s g x = some s') : Other s s' w wk := by
  simp only [runWorker] at h
  cases hpc : x.pc with
  | start =>
    simp only [hpc] at h
    cases h
    exact other_set s s g w _ wk hne hw (Keeps_refl s)
  | query f =>
    simp only [hpc] at h
    split at h
    · cases h
      exact other_set s s g w _ wk hne hw (Keeps_refl s)
    · cases hq : Query.run s f with
      | none => simp [hq] at h
      | some p =>
        obtain ⟨s1, f1⟩ := p
        simp only [hq, Option.map_some', Option.some.injEq] at h
        subst h
        exact other_set s s1 g w _ wk hne hw (Query_run_keeps s s1 f f1 hq)
  | send r => simp [hpc] at h
  | waitCtx =>
    simp only [hpc] at h
    split at h
    · cases h
      exact other_set s s g w _ wk hne hw (Keeps_refl s)
    · cases h
  | close =>
    simp only [hpc] at h
    cases h
    exact other_set s _ g w _ wk hne hw ⟨rfl, ⟨_, rfl⟩, Or.inl rfl⟩
  | delete =>
    simp only [hpc] at h
    cases h
    exact other_set s _ g w _ wk hne hw ⟨rfl, ⟨_, rfl⟩, Or.inl rfl⟩
  | done => simp [hpc] at h

theorem runCaller_other (s s' : Sys) (g w : Nat) (c : Caller) (wk : Worker) (hne : g ≠ w)
    (hw : s.gs[w]? = some (.worker wk)) (h : runCaller s g c = some s') : Other s s' w wk := by
  simp only [runCaller] at h
  cases hpc : c.pc with
  | pending =>
    simp only [hpc] at h
    split at h
    · cases h
      exact other_set s s g w _ wk hne hw (Keeps_refl s)
    · cases h
  | query f =>
    simp only [hpc] at h
    cases hq : Query.run s f with
    | none => simp [hq] at h
    | some p =>
      obtain ⟨s1, f1⟩ := p
      simp only [hq, Option.map_some', Option.some.injEq] at h
      subst h
      exact other_set s s1 g w _ wk hne hw (Query_run_keeps s s1 f f1 hq)

theorem runBackend_other (http : Http) (s s' : Sys) (g w : Nat) (b : Backend) (wk : Worker)
    (hne : g ≠ w) (hw : s.gs[w]? = some (.worker wk)) (h : runBackend http s g b = some s') :
    Other s s' w wk := by
  simp only [runBackend] at h
  cases hpc : b.pc with
  | call =>
    simp only [hpc] at h
    cases h
    exact other_set s _ g w _ wk hne hw (Keeps_emit _ _)
  | wait t x e =>
    simp only [hpc] at h
    split at h
    · split at h
      · split at h
        · cases h
          exact other_set s _ g w _ wk hne hw ⟨rfl, ⟨[], (List.append_nil _).symm⟩, Or.inl rfl⟩
        · cases h
      · cases h
    · cases h
  | since x =>
    simp only [hpc] at h
    split at h
    · cases h
      exact other_set s _ g w _ wk hne hw ⟨rfl, ⟨_, rfl⟩, Or.inl rfl⟩
    · cases h
      exact other_set s s g w _ wk hne hw (Keeps_refl s)
  | close =>
    simp only [hpc] at h
    split at h
    · cases h
      exact other_set s _ g w _ wk hne hw ⟨rfl, ⟨[], (List.append_nil _).symm⟩, Or.inl rfl⟩
    · cases h
  | done => simp [hpc] at h

theorem runG_other (http : Http) (s s' : Sys) (g w : Nat) (wk : Worker) (hne : g ≠ w)
    (hw : s.gs[w]? = some (.worker wk)) (h : runG http s g = some s') : Other s s' w wk := by
  simp only [runG] at h
  cases hg : s.gs[g]? with
  | none => simp [hg] at h
  | some x =>
    cases x with
    | attempt a0 =>
      simp only [hg] at h
      exact ReceiveMsg_other s s' g w a0 wk hne hw h
    | worker x =>
      simp only [hg] at h
      exact runWorker_other s s' g w x wk hne hw h
    | caller c =>
      simp only [hg] at h
      exact runCaller_other s s' g w c wk hne hw h
    | backend b =>
      simp only [hg] at h
      exact runBackend_other http s s' g w b wk hne hw h

theorem expireG_other (s s' : Sys) (g w : Nat) (wk : Worker) (hne : g ≠ w)
    (hw : s.gs[w]? = some (.worker wk)) (h : expireG s g = some s') : Other s s' w wk := by
  simp only [expireG] at h
  cases hg : s.gs[g]? with
  | none => simp [hg] at h
  | some x =>
    cases x with
    | attempt a0 =>
      simp only [hg] at h
      cases hpc : a0.pc <;> simp only [hpc] at h <;> try cases h
      split at h
      · cases h
        exact other_set s s g w _ wk hne hw (Keeps_refl s)
      · cases h
    | worker x =>
      simp only [hg] at h
      cases hpc : x.pc <;> simp only [hpc] at h <;> try cases h
      rename_i f
      cases hq : Query.expire s f with
      | none => simp [hq] at h
      | some p =>
        obtain ⟨s1, f1⟩ := p
        simp only [hq, Option.map_some', Option.some.injEq] at h
        subst h
        exact other_set s s1 g w _ wk hne hw (Query_expire_keeps s s1 f f1 hq)
    | caller c =>
      simp only [hg] at h
      cases hpc : c.pc <;> simp only [hpc] at h <;> try cases h
      rename_i f
      cases hq : Query.expire s f with
      | none => simp [hq] at h
      | some p =>
        obtain ⟨s1, f1⟩ := p
        simp only [hq, Option.map_some', Option.some.injEq] at h
        subst h
        exact other_set s s1 g w _ wk hne hw (Query_expire_keeps s s1 f f1 hq)
    | backend b => simp [hg] at h

theorem move_of_other (s s' : Sys) (w : Nat) (wk : Worker) (h : Other s s' w wk) :
    ∃ wk1, s'.gs[w]? = some (.worker wk1) ∧ WorkerMove s s' wk wk1 := by
  obtain ⟨h1, h2, h3 | ⟨hs, h3⟩⟩ := h
  · exact ⟨wk, h3, h2, rfl, Or.inl ⟨rfl, h1⟩⟩
  · exact ⟨_, h3, h2, rfl, Or.inr (Or.inr (Or.inr (Or.inr (Or.inl ⟨h1, hs, rfl, rfl⟩))))⟩

theorem runWorker_move (s s' : Sys) (w : Nat) (wk : Worker)
    (hw : s.gs[w]? = some (.worker wk)) (h : runWorker s w wk = some s') :
    ∃ wk1, s'.gs[w]? = some (.worker wk1) ∧ WorkerMove s s' wk wk1 := by
  simp only [runWorker] at h
  cases hpc : wk.pc with
  | start =>
    simp only [hpc] at h
    cases h
    exact ⟨_, self_set s s w _ _ hw (Keeps_refl s), ⟨[], (List.append_nil _).symm⟩, rfl,
      Or.inr (Or.inr (Or.inl ⟨rfl, hpc, rfl, _, rfl⟩))⟩
  | query f =>
    simp only [hpc] at h
    split at h
    · cases h
      exact ⟨_, self_set s s w _ _ hw (Keeps_refl s), ⟨[], (List.append_nil _).symm⟩, rfl,
        Or.inr (Or.inr (Or.inr (Or.inl ⟨rfl, ⟨f, hpc⟩, rfl, Or.inr ⟨_, rfl⟩⟩)))⟩
    · cases hq : Query.run s f with
      | none => simp [hq] at h
      | some p =>
        obtain ⟨s1, f1⟩ := p
        simp only [hq, Option.map_some', Option.some.injEq] at h
        subst h
        have hk := Query_run_keeps s s1 f f1 hq
        exact ⟨_, self_set s s1 w _ _ hw hk, hk.2.1, rfl,
          Or.inr (Or.inr (Or.inr (Or.inl ⟨hk.1, ⟨f, hpc⟩, rfl, Or.inl ⟨_, rfl⟩⟩)))⟩
  | send r => simp [hpc] at h
  | waitCtx =>
    simp only [hpc] at h
    split at h
    · rename_i hd
      cases h
      exact ⟨_, self_set s s w _ _ hw (Keeps_refl s), ⟨[], (List.append_nil _).symm⟩, rfl,
        Or.inr (Or.inr (Or.inr (Or.inr (Or.inr (Or.inl ⟨rfl, hpc, hd, rfl, rfl⟩)))))⟩
    · cases h
  | close =>
    simp only [hpc] at h
    cases h
    exact ⟨_, self_set s _ w _ _ hw ⟨rfl, ⟨_, rfl⟩, Or.inl rfl⟩, ⟨_, rfl⟩, rfl,
      Or.inr (Or.inr (Or.inr (Or.inr (Or.inr (Or.inr (Or.inl ⟨rfl, hpc, rfl, rfl, rfl⟩))))))⟩
  | delete =>
    simp only [hpc] at h
    cases h
    exact ⟨_, self_set s _ w _ _ hw ⟨rfl, ⟨_, rfl⟩, Or.inl rfl⟩, ⟨_, rfl⟩, rfl,
      Or.inr (Or.inr (Or.inr (Or.inr (Or.inr (Or.inr (Or.inr ⟨rfl, hpc, rfl, rfl, rfl⟩))))))⟩
  | done => simp [hpc] at h

theorem expireG_move (s s' : Sys) (w : Nat) (wk : Worker)
    (hw : s.gs[w]? = some (.worker wk)) (h : expireG s w = some s') :
    ∃ wk1, s'.gs[w]? = some (.worker wk1) ∧ WorkerMove s s' wk wk1 := by
  simp only [expireG, hw] at h
  cases hpc : wk.pc <;> simp only [hpc] at h <;> try cases h
  rename_i f
  cases hq : Query.expire s f with
  | none => simp [hq] at h
  | some p =>
    obtain ⟨s1, f1⟩ := p
    simp only [hq, Option.map_some', Option.some.injEq] at h
    subst h
    have hk := Query_expire_keeps s s1 f f1 hq
    exact ⟨_, self_set s s1 w _ _ hw hk, hk.2.1, rfl,
      Or.inr (Or.inr (Or.inr (Or.inl ⟨hk.1, ⟨f, hpc⟩, rfl, Or.inl ⟨_, rfl⟩⟩)))⟩

theorem nextWake_le (s : Sys) (t : Int) (w : Nat) (wk : Worker) (h : nextWake s = some t)
    (hw : s.gs[w]? = some (.worker wk)) (hpc : wk.pc = .waitCtx) : t ≤ wk.deadline := by
  have hmem : wk.deadline ∈ s.gs.filterMap wake := by
    rw [List.mem_filterMap]
    exact ⟨.worker wk, List.getElem?_mem hw, by simp [wake, hpc]⟩
  exact (List.le_min?_iff (fun _ _ _ => le_min_iff) h).1 (le_refl t) _ hmem

theorem advance_move (http : Http) (s s' : Sys) (w : Nat) (wk : Worker)
    (hw : s.gs[w]? = some (.worker wk)) (h : advance http s = some s') :
    ∃ wk1, s'.gs[w]? = some (.worker wk1) ∧ WorkerMove s s' wk wk1 := by
  have hrun : ¬ (runG http s w).isSome = true := by
    intro hr
    rw [advance_eq_none_of_runG http s w hr] at h
    cases h
  simp only [advance] at h
  split at h
  · split at h
    · rename_i t ht
      split at h
      · rename_i hlt
        cases h
        refine ⟨wk, hw, ⟨[], (List.append_nil _).symm⟩, rfl, Or.inr (Or.inl
          ⟨rfl, hlt, rfl, ?_, ?_, ?_, fun hpc => nextWake_le s t w wk ht hw hpc⟩)⟩
        · intro hpc
          exact hrun (by simp [runG, hw, runWorker, hpc])
        · intro hpc
          exact hrun (by simp [runG, hw, runWorker, hpc])
        · intro hpc
          exact hrun (by simp [runG, hw, runWorker, hpc])
      · cases h
    · cases h
  · cases h

/-- What any step of the process does to the worker at index `w`. -/
theorem step_worker (http : Http) (s s' : Sys) (a : Act) (w : Nat) (wk : Worker)
    (hw : s.gs[w]? = some (.worker wk)) (h : step http s a = some s') :
    ∃ wk1, s'.gs[w]? = some (.worker wk1) ∧ WorkerMove s s' wk wk1 := by
  cases a with
  | run g =>
    simp only [step] at h
    by_cases hg : g = w
    · subst hg
      simp only [runG, hw] at h
      exact runWorker_move s s' g wk hw h
    · exact move_of_other s s' w wk (runG_other http s s' g w wk hg hw h)
  | expire g =>
    simp only [step] at h
    by_cases hg : g = w
    · subst hg
      exact expireG_move s s' g wk hw h
    · exact move_of_other s s' w wk (expireG_other s s' g w wk hg hw h)
  | advance =>
    simp only [step] at h
    exact advance_move http s s' w wk hw h

theorem Started_move (t0 : Int) (s s' : Sys) (wk wk1 : Worker) (hs : Started t0 s wk)
    (hm : WorkerMove s s' wk wk1) : Started t0 s' wk1 := by
  obtain ⟨h1, h2, h3⟩ := hs
  obtain ⟨-, -, hm⟩ := hm
  rcases hm with ⟨rfl, hn⟩ | ⟨rfl, hlt, -, hp1, hp2, hp3, -⟩ | ⟨hn, hp, hd, f, hf⟩ |
    ⟨hn, ⟨f, hp⟩, hd, ⟨f1, hf⟩ | ⟨r, hf⟩⟩ | ⟨hn, ⟨r, hp⟩, hd, hf⟩ | ⟨hn, hp, hle, hd, hf⟩ |
    ⟨hn, hp, hd, hf, -⟩ | ⟨hn, hp, hd, hf, -⟩
  · exact ⟨fun h => by rw [hn]; exact h1 h, h2, fun h => by rw [hn]; exact h3 h⟩
  · refine ⟨fun h => absurd h hp1, h2, fun h => ?_⟩
    rcases h with h | h | h
    · exact absurd h hp2
    · exact absurd h hp3
    · have := h3 (Or.inr (Or.inr h))
      omega
  · refine ⟨fun h => by simp [hf] at h, fun _ => by rw [hd, h1 hp], fun h => ?_⟩
    simp [hf] at h
  · refine ⟨fun h => by simp [hf] at h, fun _ => by rw [hd]; exact h2 (by simp [hp]),
      fun h => ?_⟩
    simp [hf] at h
  · refine ⟨fun h => by simp [hf] at h, fun _ => by rw [hd]; exact h2 (by simp [hp]),
      fun h => ?_⟩
    simp [hf] at h
  · refine ⟨fun h => by simp [hf] at h, fun _ => by rw [hd]; exact h2 (by simp [hp]),
      fun h => ?_⟩
    simp [hf] at h
  · refine ⟨fun h => by simp [hf] at h, fun _ => by rw [hd]; exact h2 (by simp [hp]),
      fun _ => ?_⟩
    have := h2 (by simp [hp])
    omega
  · refine ⟨fun h => by simp [hf] at h, fun _ => by rw [hd]; exact h2 (by simp [hp]),
      fun _ => ?_⟩
    have := h3 (Or.inl hp)
    omega
  · refine ⟨fun h => by simp [hf] at h, fun _ => by rw [hd]; exact h2 (by simp [hp]),
      fun _ => ?_⟩
    have := h3 (Or.inr (Or.inl hp))
    omega

theorem Cleaning_move (d : Int) (id : Int) (tr0 : List (Int × Event)) (s s' : Sys)
    (wk wk1 : Worker) (hs : Cleaning d id tr0 s wk) (hm : WorkerMove s s' wk wk1) :
    Cleaning d id tr0 s' wk1 := by
  obtain ⟨hid, hdl, es, htr, hc⟩ := hs
  obtain ⟨⟨es1, htr1⟩, hid1, hm⟩ := hm
  have htr2 : s'.trace = tr0 ++ (es ++ es1) := by rw [htr1, htr, List.append_assoc]
  refine ⟨hid1.trans hid, ?_, es ++ es1, htr2, ?_⟩
  · rcases hm with ⟨rfl, -⟩ | ⟨rfl, -⟩ | ⟨-, hp, -, f, hf⟩ |
      ⟨-, -, hd, -⟩ | ⟨-, -, hd, -⟩ | ⟨-, -, -, hd, -⟩ | ⟨-, -, hd, -⟩ | ⟨-, -, hd, -⟩
    · exact hdl
    · exact hdl
    · rcases hc with ⟨h, -⟩ | ⟨h, -⟩ | ⟨h, -⟩ | ⟨h, -⟩ <;> simp [h] at hp
    · rw [hd]; exact hdl
    · rw [hd]; exact hdl
    · rw [hd]; exact hdl
    · rw [hd]; exact hdl
    · rw [hd]; exact hdl
  · rcases hm with ⟨rfl, hn⟩ | ⟨rfl, hlt, -, hp1, hp2, hp3, hw⟩ | ⟨hn, hp, hd, f, hf⟩ |
      ⟨hn, ⟨f, hp⟩, hd, -⟩ | ⟨hn, ⟨r, hp⟩, hd, hf⟩ | ⟨hn, hp, hle, hd, hf⟩ |
      ⟨hn, hp, hd, hf, ht⟩ | ⟨hn, hp, hd, hf, ht⟩
    · rcases hc with ⟨h, h1⟩ | ⟨h, h1⟩ | ⟨h, h1, h2⟩ | ⟨h, h1, h2, h3⟩
      · exact Or.inl ⟨h, by omega⟩
      · exact Or.inr (Or.inl ⟨h, by omega⟩)
      · exact Or.inr (Or.inr (Or.inl ⟨h, by omega, List.mem_append_left _ h2⟩))
      · exact Or.inr (Or.inr (Or.inr ⟨h, by omega, List.mem_append_left _ h2,
          List.mem_append_left _ h3⟩))
    · rcases hc with ⟨h, h1⟩ | ⟨h, h1⟩ | ⟨h, h1, h2⟩ | ⟨h, h1, h2, h3⟩
      · have := hw h
        exact Or.inl ⟨h, by omega⟩
      · exact absurd h hp2
      · exact absurd h hp3
      · exact Or.inr (Or.inr (Or.inr ⟨h, by omega, List.mem_append_left _ h2,
          List.mem_append_left _ h3⟩))
    · rcases hc with ⟨h, -⟩ | ⟨h, -⟩ | ⟨h, -⟩ | ⟨h, -⟩ <;> simp [h] at hp
    · rcases hc with ⟨h, -⟩ | ⟨h, -⟩ | ⟨h, -⟩ | ⟨h, -⟩ <;> simp [h] at hp
    · rcases hc with ⟨h, -⟩ | ⟨h, -⟩ | ⟨h, -⟩ | ⟨h, -⟩ <;> simp [h] at hp
    · rcases hc with ⟨h, h1⟩ | ⟨h, -⟩ | ⟨h, -⟩ | ⟨h, -⟩
      · exact Or.inr (Or.inl ⟨hf, by omega⟩)
      · simp [h] at hp
      · simp [h] at hp
      · simp [h] at hp
    · rcases hc with ⟨h, -⟩ | ⟨h, h1⟩ | ⟨h, -⟩ | ⟨h, -⟩
      · simp [h] at hp
      · refine Or.inr (Or.inr (Or.inl ⟨hf, by omega, ?_⟩))
        have he : es1 = [(s.now, Event.closed wk.id)] := by
          rw [ht] at htr1
          exact (List.append_cancel_left htr1).symm
        rw [he, h1, hid]
        simp
      · simp [h] at hp
      · simp [h] at hp
    · rcases hc with ⟨h, -⟩ | ⟨h, -⟩ | ⟨h, h1, h2⟩ | ⟨h, -⟩
      · simp [h] at hp
      · simp [h] at hp
      · refine Or.inr (Or.inr (Or.inr ⟨hf, by omega, List.mem_append_left _ h2, ?_⟩))
        have he : es1 = [(s.now, Event.deleted wk.id)] := by
          rw [ht] at htr1
          exact (List.append_cancel_left htr1).symm
        rw [he, h1, hid]
        simp
      · simp [h] at hp

theorem worker_exec (http : Http) (P : Sys → Worker → Prop) (w : Nat)
    (hP : ∀ s s' wk wk1, P s wk → WorkerMove s s' wk wk1 → P s' wk1) (acts : List Act) :
    ∀ (s s' : Sys) (wk : Worker), s.gs[w]? = some (.worker wk) → P s wk →
      exec http s acts = some s' → ∃ wk1, s'.gs[w]? = some (.worker wk1) ∧ P s' wk1 := by
  induction acts with
  | nil =>
    intro s s' wk hw hp h
    simp only [exec, Option.some.injEq] at h
    subst h
    exact ⟨wk, hw, hp⟩
  | cons a rest ih =>
    intro s s' wk hw hp h
    simp only [exec] at h
    cases hs : step http s a with
    | none => simp [hs] at h
    | some s1 =>
      simp only [hs, Option.some_bind] at h
      obtain ⟨wk1, hw1, hm⟩ := step_worker http s s1 a w wk hw hs
      exact ih s1 s' wk1 hw1 (hP s s1 wk wk1 hp hm) h

/-- C7 as amended. Session lifetime, for every worker of every session, in any
state of the process and on every schedule. Let the worker at index `w` be
about to start (user.go:59-61) when the clock reads `t0 = s0.now`. Then in every
later state: the worker is still the goroutine at `w` with the same message id;
once it has started, the end of its context is `t0 + 14 s`, whatever the
completion does; it does not close the channel or delete the id before
`t0 + 14 s`; and when its result has been taken while the clock reads at most
`t0 + 14 s`, then from there on it waits while the clock reads at most
`t0 + 14 s`, closes the channel when it reads exactly `t0 + 14 s`, and deletes
the id at that same instant: the events of closing and deleting, both at
`t0 + 14 s`, are among those observed after the hand-over. The cleanup is
14 s after the start of the worker, not a fixed time after the result. -/
theorem worker_cleanup_at_deadline (http : Http) (s0 : Sys) (w : Nat) (wk0 : Worker)
    (acts : List Act) (s : Sys)
    (hw : s0.gs[w]? = some (.worker wk0)) (hstart : wk0.pc = .start)
    (hrun : exec http s0 acts = some s) :
    ∃ wk, s.gs[w]? = some (.worker wk) ∧ wk.id = wk0.id ∧
      (wk.pc ≠ .start → wk.deadline = s0.now + 14 * Second) ∧
      (wk.pc = .close ∨ wk.pc = .delete ∨ wk.pc = .done → s0.now + 14 * Second ≤ s.now) ∧
      (wk.pc = .waitCtx → s.now ≤ s0.now + 14 * Second →
        ∀ acts2 s2, exec http s acts2 = some s2 →
          ∃ wk2 es, s2.gs[w]? = some (.worker wk2) ∧ s2.trace = s.trace ++ es ∧
            (wk2.pc = .waitCtx ∧ s2.now ≤ s0.now + 14 * Second ∨
             wk2.pc = .close ∧ s2.now = s0.now + 14 * Second ∨
             wk2.pc = .delete ∧ s2.now = s0.now + 14 * Second ∧
               (s0.now + 14 * Second, Event.closed wk0.id) ∈ es ∨
             wk2.pc = .done ∧ s0.now + 14 * Second ≤ s2.now ∧
               (s0.now + 14 * Second, Event.closed wk0.id) ∈ es ∧
               (s0.now + 14 * Second, Event.deleted wk0.id) ∈ es)) := by
  obtain ⟨wk, hwk, hid, hst⟩ := worker_exec http
    (fun s wk => wk.id = wk0.id ∧ Started s0.now s wk) w
    (fun s s' wk wk1 hp hm => ⟨hm.2.1.trans hp.1, Started_move s0.now s s' wk wk1 hp.2 hm⟩)
    acts s0 s wk0 hw ⟨rfl, fun _ => rfl, fun h => absurd hstart h,
      fun h => by rcases h with h | h | h <;> simp [hstart] at h⟩ hrun
  refine ⟨wk, hwk, hid, hst.2.1, hst.2.2, ?_⟩
  intro hpc hle acts2 s2 hrun2
  obtain ⟨wk2, hwk2, -, -, es, htr, hc⟩ := worker_exec http
    (Cleaning (s0.now + 14 * Second) wk0.id s.trace) w
    (fun s s' wk wk1 hp hm => Cleaning_move _ _ _ s s' wk wk1 hp hm)
    acts2 s s2 wk hwk ⟨hid, hst.2.1 (by simp [hpc]), [], (List.append_nil _).symm,
      Or.inl ⟨hpc, hle⟩⟩ hrun2
  exact ⟨wk2, es, hwk2, htr, hc⟩

/-- C7 as amended, at a concrete input: message 1 is delivered at 6 s and the
backend answers "hi" after 2 s. The worker starts at 6 s and its result is
taken at 8 s; on every schedule from there, once the worker has ended, the
channel was closed and the id deleted at 20 s, and on the schedule below the
session is delivered at 8 s and cleaned up at 20 s, 12 s after the delivery. -/
theorem worker_cleanup_at_deadline_witness :
    exec (answers 2000000000 "hi") (deliveries [(6 * Second, hello)])
      [.advance, .run 0, .run 0, .run 0, .run 0] = some workerStarted ∧
    exec (answers 2000000000 "hi") workerStarted
      [.run 1, .run 1, .run 1, .run 2, .advance, .run 2, .run 1, .run 1, .run 0]
      = some resultTaken ∧
    (∀ acts2 s2, exec (answers 2000000000 "hi") resultTaken acts2 = some s2 →
      workerPc s2 1 = some .done →
      ∃ es, s2.trace = resultTaken.trace ++ es ∧ (20 * Second, Event.closed 1) ∈ es ∧
        (20 * Second, Event.deleted 1) ∈ es) ∧
    (exec (answers 2000000000 "hi") resultTaken
      [.run 2, .run 2, .advance, .run 1, .run 1, .run 1]).map
      (fun s => (s.now, workerPc s 1, deliveredAt s.trace 1, closedAt s.trace 1))
      = some (20 * Second, some .done, some (8 * Second), some (20 * Second)) ∧
    (exec (answers 2000000000 "hi") resultTaken
      [.run 2, .run 2, .advance, .run 1, .run 1, .run 1]).map
      (fun s => (deletedAt s.trace 1, SyncMap.Load s.requests 1, s.chans))
      = some (some (20 * Second), none, [true]) := by
  refine ⟨by decide, by decide, ?_, by decide, by decide⟩
  intro acts2 s2 h hd
  obtain ⟨wk, hwk, -, -, -, hin⟩ := worker_cleanup_at_deadline (answers 2000000000 "hi")
    workerStarted 1 { id := 1, msg := "hello", ch := 0 }
    [.run 1, .run 1, .run 1, .run 2, .advance, .run 2, .run 1, .run 1, .run 0] resultTaken
    rfl rfl (by decide)
  have hpc : wk.pc = .waitCtx := by
    simp [resultTaken] at hwk
    rw [← hwk]
  obtain ⟨wk2, es, hwk2, htr, hc⟩ := hin hpc (by decide) acts2 s2 h
  simp only [workerPc, hwk2, Option.some.injEq] at hd
  refine ⟨es, htr, ?_⟩
  rcases hc with ⟨h1, -⟩ | ⟨h1, -⟩ | ⟨h1, -⟩ | ⟨-, -, h2, h3⟩
  · simp [hd] at h1
  · simp [hd] at h1
  · simp [hd] at h1
  · exact ⟨h2, h3⟩

/-- C9, the failing input evaluated: one delivery of message 1, the backend
answering after 6 s, no retry. On every schedule the worker never ends and the
id is never deleted; on the schedule below the call of `ReceiveMsg` gives up at
5 s, the worker reaches its send at 6 s, and from then on no action of the
process is enabled: the worker stays blocked in `ch <- result` and `requests`
keeps the id. -/
theorem worker_blocks_forever :
    (∀ acts s', exec (answers 6000000000 "hi") (deliveries [(0, hello)]) acts = some s' →
      workerPc s' 1 ≠ some .done ∧ deletedAt s'.trace 1 = none) ∧
    ∃ s, exec (answers 6000000000 "hi") (deliveries [(0, hello)])
        [.run 0, .run 0, .run 0, .run 0, .run 1, .run 1, .run 1, .run 2, .advance, .expire 0,
         .advance, .run 2, .run 1, .run 1, .run 2, .run 2] = some s ∧
      replyOf s 0 = some .silent ∧ sendingOn s 1 = some (0, "hi") ∧
      SyncMap.Load s.requests 1 = some 0 ∧
      ∀ a, step (answers 6000000000 "hi") s a = none := by
  constructor
  · intro acts s' hrun
    have hmem := exec_mem_reachable (answers 6000000000 "hi") (deliveries [(0, hello)]) s' 20 acts
      (by decide) hrun
    have key : ∀ s ∈ reachable (answers 6000000000 "hi") 20 (deliveries [(0, hello)]),
        workerPc s 1 ≠ some .done ∧ deletedAt s.trace 1 = none := by
      decide
    exact key s' hmem
  · have h1 : (exec (answers 6000000000 "hi") (deliveries [(0, hello)])
        [.run 0, .run 0, .run 0, .run 0, .run 1, .run 1, .run 1, .run 2, .advance, .expire 0,
         .advance, .run 2, .run 1, .run 1, .run 2, .run 2]).map
        (fun s => (replyOf s 0, sendingOn s 1, SyncMap.Load s.requests 1,
          post (answers 6000000000 "hi") s))
        = some (some .silent, some (0, "hi"), some 0, []) := by
      decide
    cases hs : exec (answers 6000000000 "hi") (deliveries [(0, hello)])
        [.run 0, .run 0, .run 0, .run 0, .run 1, .run 1, .run 1, .run 2, .advance, .expire 0,
         .advance, .run 2, .run 1, .run 1, .run 2, .run 2] with
    | none =>
      rw [hs] at h1
      cases h1
    | some s =>
      rw [hs] at h1
      simp only [Option.map_some', Option.some.injEq, Prod.mk.injEq] at h1
      obtain ⟨h2, h3, h4, h5⟩ := h1
      refine ⟨s, rfl, h2, h3, h4, ?_⟩
      intro a
      cases hstep : step (answers 6000000000 "hi") s a with
      | none => rfl
      | some s1 =>
        have := mem_post_of_step _ s s1 a hstep
        rw [h5] at this
        cases this

end OpenAI
